import Mathlib

/-!
Shallow embedding of the TCP-like-UDP congestion-control repository
(`p2_server.py`, `p2_client.py`) and verification of its specification claims.

Conventions:
  * Python floats are modelled by `ℚ` (the spec's data model declares `cwnd`,
    `ssthresh`, `smoothed_rtt`, `rtt_variance`, `timeout` real-valued; the
    constants appearing in the source, 0.75/0.25/0.875/0.125/0.5, are dyadic
    and exact in both models).
  * Python byte strings are `List ℕ` (byte values), Python text strings are
    `List ℕ` (Unicode code points).
  * Fallible Python code (statements that can raise) returns `Option`/`Except`.
-/

/-! ### Constants (p2_server.py lines 23-29, p2_client.py line 23) -/

def MSS : ℕ := 1400

def INITIAL_CWND : ℚ := 1

def INITIAL_SSTHRESH : ℚ := 64

def DUP_ACK_THRESHOLD : ℕ := 3

def INITIAL_TIMEOUT : ℚ := 1

/-! ### Congestion controller (p2_server.py, class CongestionControl, lines 31-79) -/

inductive CCState where
  | slow_start
  | congestion_avoidance
  | fast_recovery
  deriving DecidableEq, Repr

structure CongestionControl where
  cwnd : ℚ
  ssthresh : ℚ
  state : CCState
  dup_ack_count : ℕ
  deriving DecidableEq, Repr

/-- `CongestionControl.__init__` (lines 32-36). -/
def ccInit : CongestionControl :=
  { cwnd := INITIAL_CWND, ssthresh := INITIAL_SSTHRESH
    state := .slow_start, dup_ack_count := 0 }

/-- `CongestionControl.on_triple_duplicate_ack` (lines 69-72):
`ssthresh = max(math.floor(cwnd / 2), 2)`, `cwnd = ssthresh + 3`, state
becomes `fast_recovery`.  `dup_ack_count` is not modified. -/
def on_triple_duplicate_ack (c : CongestionControl) : CongestionControl :=
  let ss : ℤ := max ⌊c.cwnd / 2⌋ 2
  { c with ssthresh := (ss : ℚ), cwnd := (ss : ℚ) + 3, state := .fast_recovery }

/-- `CongestionControl.on_ack_received` (lines 38-67). -/
def on_ack_received (c : CongestionControl) (is_duplicate : Bool) : CongestionControl :=
  match c.state with
  | .slow_start =>
      if !is_duplicate then
        let c := { c with cwnd := c.cwnd + 1, dup_ack_count := 0 }
        if c.cwnd ≥ c.ssthresh then { c with state := .congestion_avoidance } else c
      else
        let c := { c with dup_ack_count := c.dup_ack_count + 1 }
        if c.dup_ack_count = DUP_ACK_THRESHOLD then on_triple_duplicate_ack c else c
  | .congestion_avoidance =>
      if !is_duplicate then
        { c with cwnd := c.cwnd + 1 / (⌊c.cwnd⌋ : ℚ), dup_ack_count := 0 }
      else
        let c := { c with dup_ack_count := c.dup_ack_count + 1 }
        if c.dup_ack_count = DUP_ACK_THRESHOLD then on_triple_duplicate_ack c else c
  | .fast_recovery =>
      if !is_duplicate then
        { c with cwnd := c.ssthresh, dup_ack_count := 0, state := .congestion_avoidance }
      else
        { c with cwnd := c.cwnd + 1 }

/-- `CongestionControl.on_timeout` (lines 74-79). -/
def on_timeout (c : CongestionControl) : CongestionControl :=
  { c with ssthresh := ((max ⌊c.cwnd / 2⌋ 2 : ℤ) : ℚ)
           cwnd := INITIAL_CWND, state := .slow_start, dup_ack_count := 0 }

/-- The externally triggerable congestion-controller events: a new cumulative
ack (`on_ack_received(False)`), a duplicate ack (`on_ack_received(True)`),
a retransmission timeout (`on_timeout`), and a direct call of the
`on_triple_duplicate_ack` method. -/
inductive CCEvent where
  | newAck
  | dupAck
  | timeout
  | tripleDup
  deriving DecidableEq, Repr

def ccApply (c : CongestionControl) : CCEvent → CongestionControl
  | .newAck => on_ack_received c false
  | .dupAck => on_ack_received c true
  | .timeout => on_timeout c
  | .tripleDup => on_triple_duplicate_ack c

/-- The controller state after a finite event sequence from the initial state. -/
def ccRun (evs : List CCEvent) : CongestionControl :=
  evs.foldl ccApply ccInit

/-- The duplicate-ack branch of the sender's wait phase (p2_server.py
lines 142-145): process the duplicate ack, then retransmit the window-base
segment exactly when `cc.state == "fast_recovery" and
cc.dup_ack_count >= DUP_ACK_THRESHOLD`.  The Boolean records whether the
`fast_recovery(...)` retransmission call is executed. -/
def dupAckStep (c : CongestionControl) : CongestionControl × Bool :=
  let c' := on_ack_received c true
  (c', decide (c'.state = .fast_recovery) && decide (DUP_ACK_THRESHOLD ≤ c'.dup_ack_count))

/-! ### RTT estimator (p2_server.py, class RTTEstimator, lines 184-198)

In the source `srtt` and `rttvar` are two fields that are both `None`
initially and both become set on the first sample; they are modelled as a
single optional pair `est`. -/

structure RTTEstimator where
  est : Option (ℚ × ℚ)
  timeout : ℚ
  deriving DecidableEq, Repr

/-- `RTTEstimator.__init__` (lines 186-189). -/
def rttInit : RTTEstimator := { est := none, timeout := INITIAL_TIMEOUT }

/-- `RTTEstimator.update` (lines 191-198).  On the first sample
`srtt = rtt`, `rttvar = rtt / 2`; afterwards
`rttvar = 0.75*rttvar + 0.25*abs(srtt - rtt)` and then
`srtt = 0.875*srtt + 0.125*rtt` (the variance update reads the old `srtt`);
in both cases `timeout = srtt + 4 * rttvar`. -/
def RTTEstimator.update (st : RTTEstimator) (rtt : ℚ) : RTTEstimator :=
  match st.est with
  | none =>
      let srtt := rtt
      let rttvar := rtt / 2
      { est := some (srtt, rttvar), timeout := srtt + 4 * rttvar }
  | some (srtt, rttvar) =>
      let rttvar' := 3/4 * rttvar + 1/4 * |srtt - rtt|
      let srtt' := 7/8 * srtt + 1/8 * rtt
      { est := some (srtt', rttvar'), timeout := srtt' + 4 * rttvar' }

/-- The estimator state after observing a finite sequence of samples. -/
def rttRun (samples : List ℚ) : RTTEstimator :=
  samples.foldl RTTEstimator.update rttInit

/-! ## Congestion-controller invariant lemmas -/

lemma two_le_cast_maxfloor (q : ℚ) : (2 : ℚ) ≤ ((max ⌊q / 2⌋ 2 : ℤ) : ℚ) := by
  exact_mod_cast le_max_right ⌊q / 2⌋ 2

lemma on_triple_duplicate_ack_numeric (c : CongestionControl) :
    1 ≤ (on_triple_duplicate_ack c).cwnd ∧ 2 ≤ (on_triple_duplicate_ack c).ssthresh := by
  have h := two_le_cast_maxfloor c.cwnd
  constructor
  · simp only [on_triple_duplicate_ack]
    linarith
  · simpa only [on_triple_duplicate_ack] using h

lemma ccApply_numeric_inv (c : CongestionControl) (h1 : 1 ≤ c.cwnd) (h2 : 2 ≤ c.ssthresh)
    (e : CCEvent) : 1 ≤ (ccApply c e).cwnd ∧ 2 ≤ (ccApply c e).ssthresh := by
  obtain ⟨htd1, htd2⟩ := on_triple_duplicate_ack_numeric c
  have hfl : (1 : ℚ) ≤ (⌊c.cwnd⌋ : ℚ) := by
    exact_mod_cast Int.le_floor.mpr (by exact_mod_cast h1)
  have hdiv : (0 : ℚ) ≤ 1 / (⌊c.cwnd⌋ : ℚ) := div_nonneg zero_le_one (by linarith)
  have hmax := two_le_cast_maxfloor c.cwnd
  obtain ⟨w, s, st, d⟩ := c
  simp only at h1 h2 hfl hdiv hmax
  cases e with
  | newAck =>
      cases st with
      | slow_start =>
          by_cases hc : s ≤ w + 1 <;>
            · simp [ccApply, on_ack_received, hc]
              constructor <;> linarith
      | congestion_avoidance =>
          simp [ccApply, on_ack_received]
          rw [one_div] at hdiv
          constructor <;> linarith
      | fast_recovery =>
          simp [ccApply, on_ack_received]
          constructor <;> linarith
  | dupAck =>
      cases st with
      | slow_start =>
          by_cases hd3 : d + 1 = DUP_ACK_THRESHOLD
          · simp only [ccApply, on_ack_received, Bool.not_true, Bool.false_eq_true, if_false,
              hd3, if_true]
            exact on_triple_duplicate_ack_numeric _
          · simp [ccApply, on_ack_received, hd3]
            exact ⟨h1, h2⟩
      | congestion_avoidance =>
          by_cases hd3 : d + 1 = DUP_ACK_THRESHOLD
          · simp only [ccApply, on_ack_received, Bool.not_true, Bool.false_eq_true, if_false,
              hd3, if_true]
            exact on_triple_duplicate_ack_numeric _
          · simp [ccApply, on_ack_received, hd3]
            exact ⟨h1, h2⟩
      | fast_recovery =>
          simp [ccApply, on_ack_received]
          constructor <;> linarith
  | timeout =>
      refine ⟨by simp [ccApply, on_timeout, INITIAL_CWND], ?_⟩
      simp only [ccApply, on_timeout]
      try linarith
  | tripleDup => exact ⟨htd1, htd2⟩

/-- C9: in every congestion-controller state reachable from the initial state
(`cwnd = 1`, `ssthresh = 64`, slow start) by any finite sequence of new-ack,
duplicate-ack, triple-duplicate and timeout events, `cwnd ≥ 1` and
`ssthresh ≥ 2` hold. -/
theorem c9_reachable_cwnd_ssthresh_bounds (evs : List CCEvent) :
    1 ≤ (ccRun evs).cwnd ∧ 2 ≤ (ccRun evs).ssthresh := by
  have main : ∀ (l : List CCEvent) (c : CongestionControl),
      1 ≤ c.cwnd → 2 ≤ c.ssthresh →
      1 ≤ (l.foldl ccApply c).cwnd ∧ 2 ≤ (l.foldl ccApply c).ssthresh := by
    intro l
    induction l with
    | nil => intro c h1 h2; exact ⟨h1, h2⟩
    | cons e l ih =>
        intro c h1 h2
        obtain ⟨g1, g2⟩ := ccApply_numeric_inv c h1 h2 e
        exact ih _ g1 g2
  exact main evs ccInit (by norm_num [ccInit, INITIAL_CWND])
    (by norm_num [ccInit, INITIAL_SSTHRESH])

/-! ## Duplicate-ack counter invariant (C10) -/

lemma ccApply_dup_inv (c : CongestionControl)
    (h : c.dup_ack_count ≤ 3 ∧ (c.state ≠ .fast_recovery → c.dup_ack_count ≤ 2))
    (e : CCEvent) (he : e ≠ .tripleDup) :
    (ccApply c e).dup_ack_count ≤ 3 ∧
      ((ccApply c e).state ≠ .fast_recovery → (ccApply c e).dup_ack_count ≤ 2) := by
  obtain ⟨hle, hnf⟩ := h
  obtain ⟨w, s, st, d⟩ := c
  simp only at hle hnf
  cases e with
  | newAck =>
      cases st with
      | slow_start =>
          by_cases hc : s ≤ w + 1 <;> simp [ccApply, on_ack_received, hc]
      | congestion_avoidance => simp [ccApply, on_ack_received]
      | fast_recovery => simp [ccApply, on_ack_received]
  | dupAck =>
      cases st with
      | slow_start =>
          have hd2 : d ≤ 2 := hnf (by simp)
          by_cases hd3 : d + 1 = DUP_ACK_THRESHOLD
          · simp [ccApply, on_ack_received, hd3, on_triple_duplicate_ack, DUP_ACK_THRESHOLD]
          · simp only [DUP_ACK_THRESHOLD] at hd3
            simp [ccApply, on_ack_received, DUP_ACK_THRESHOLD, hd3]
            omega
      | congestion_avoidance =>
          have hd2 : d ≤ 2 := hnf (by simp)
          by_cases hd3 : d + 1 = DUP_ACK_THRESHOLD
          · simp [ccApply, on_ack_received, hd3, on_triple_duplicate_ack, DUP_ACK_THRESHOLD]
          · simp only [DUP_ACK_THRESHOLD] at hd3
            simp [ccApply, on_ack_received, DUP_ACK_THRESHOLD, hd3]
            omega
      | fast_recovery =>
          simp [ccApply, on_ack_received]
          exact hle
  | timeout => simp [ccApply, on_timeout]
  | tripleDup => exact absurd rfl he

/-- C10: in every controller state reachable from the initial state by
new-ack, duplicate-ack and timeout events, `dup_ack_count ≤ 3`; moreover the
counter is never incremented while in fast recovery, every new ack and every
timeout reset it to 0, and (outside fast recovery) a duplicate ack moves the
machine into fast recovery exactly when the counter reaches the threshold 3,
so the source's equality test `dup_ack_count == DUP_ACK_THRESHOLD` suffices. -/
theorem c10_dup_ack_count_le_three :
    (∀ evs : List CCEvent, CCEvent.tripleDup ∉ evs → (ccRun evs).dup_ack_count ≤ 3) ∧
    (∀ c : CongestionControl, c.state = .fast_recovery →
      (on_ack_received c true).dup_ack_count = c.dup_ack_count) ∧
    (∀ c : CongestionControl,
      (on_ack_received c false).dup_ack_count = 0 ∧ (on_timeout c).dup_ack_count = 0) ∧
    (∀ c : CongestionControl, c.state ≠ .fast_recovery →
      ((on_ack_received c true).state = .fast_recovery ↔ c.dup_ack_count + 1 = 3)) := by
  refine ⟨?_, ?_, ?_, ?_⟩
  · intro evs hne
    have main : ∀ (l : List CCEvent) (c : CongestionControl), CCEvent.tripleDup ∉ l →
        c.dup_ack_count ≤ 3 → (c.state ≠ .fast_recovery → c.dup_ack_count ≤ 2) →
        (l.foldl ccApply c).dup_ack_count ≤ 3 := by
      intro l
      induction l with
      | nil => intro c _ h _; exact h
      | cons e l ih =>
          intro c hni h1 h2
          obtain ⟨hne1, hne2⟩ : ¬(CCEvent.tripleDup = e) ∧ CCEvent.tripleDup ∉ l := by
            simpa using hni
          obtain ⟨g1, g2⟩ := ccApply_dup_inv c ⟨h1, h2⟩ e (Ne.symm hne1)
          exact ih _ hne2 g1 g2
    exact main evs ccInit hne (by norm_num [ccInit]) (by norm_num [ccInit])
  · rintro ⟨w, s, st, d⟩ hst
    simp only at hst
    subst hst
    simp [on_ack_received]
  · rintro ⟨w, s, st, d⟩
    cases st with
    | slow_start =>
        by_cases hc : s ≤ w + 1 <;> simp [on_ack_received, on_timeout, hc]
    | congestion_avoidance => simp [on_ack_received, on_timeout]
    | fast_recovery => simp [on_ack_received, on_timeout]
  · rintro ⟨w, s, st, d⟩ hst
    cases st with
    | slow_start =>
        by_cases hd3 : d + 1 = DUP_ACK_THRESHOLD
        · simp only [DUP_ACK_THRESHOLD] at hd3
          simp [on_ack_received, on_triple_duplicate_ack, DUP_ACK_THRESHOLD, hd3]
        · simp only [DUP_ACK_THRESHOLD] at hd3
          simp [on_ack_received, DUP_ACK_THRESHOLD, hd3]
    | congestion_avoidance =>
        by_cases hd3 : d + 1 = DUP_ACK_THRESHOLD
        · simp only [DUP_ACK_THRESHOLD] at hd3
          simp [on_ack_received, on_triple_duplicate_ack, DUP_ACK_THRESHOLD, hd3]
        · simp only [DUP_ACK_THRESHOLD] at hd3
          simp [on_ack_received, DUP_ACK_THRESHOLD, hd3]
    | fast_recovery => simp at hst

/-- Witness for C10 at concrete inputs: four duplicate acks from the initial
state leave the counter at 3, a duplicate ack in fast recovery does not change
the counter, and from congestion avoidance with counter 2 a duplicate ack
enters fast recovery. -/
theorem c10_witness :
    (CCEvent.tripleDup ∉ [CCEvent.dupAck, .dupAck, .dupAck, .dupAck] ∧
      (ccRun [CCEvent.dupAck, .dupAck, .dupAck, .dupAck]).dup_ack_count ≤ 3) ∧
    (on_ack_received ⟨13, 10, .fast_recovery, 3⟩ true).dup_ack_count = 3 ∧
    ((on_ack_received ⟨20, 64, .congestion_avoidance, 2⟩ true).state = .fast_recovery ↔
      2 + 1 = 3) := by
  refine ⟨⟨by decide, c10_dup_ack_count_le_three.1 _ (by decide)⟩, ?_, ?_⟩
  · exact c10_dup_ack_count_le_three.2.1 ⟨13, 10, .fast_recovery, 3⟩ rfl
  · exact c10_dup_ack_count_le_three.2.2.2 ⟨20, 64, .congestion_avoidance, 2⟩ (by simp)

/-! ## Triple-duplicate transition (C5) and fast-retransmit trigger (C6) -/

/-- C5: from any controller state in slow start or congestion avoidance with
`dup_ack_count = 0`, three consecutive duplicate-ack events trigger the
triple-duplicate transition: `ssthresh = max(floor(cwnd / 2), 2)` (computed
from the unchanged `cwnd`), `cwnd = ssthresh + 3`, state `fast_recovery`. -/
theorem c5_triple_duplicate_transition (c : CongestionControl)
    (hs : c.state = .slow_start ∨ c.state = .congestion_avoidance)
    (hd : c.dup_ack_count = 0) :
    (on_ack_received (on_ack_received (on_ack_received c true) true) true).ssthresh
        = ((max ⌊c.cwnd / 2⌋ 2 : ℤ) : ℚ) ∧
    (on_ack_received (on_ack_received (on_ack_received c true) true) true).cwnd
        = (on_ack_received (on_ack_received (on_ack_received c true) true) true).ssthresh + 3 ∧
    (on_ack_received (on_ack_received (on_ack_received c true) true) true).state
        = .fast_recovery := by
  obtain ⟨w, s, st, d⟩ := c
  simp only at hd
  subst hd
  rcases hs with hst | hst <;>
    · simp only at hst
      subst hst
      simp [on_ack_received, on_triple_duplicate_ack, DUP_ACK_THRESHOLD]

/-- Witness for C5 at the concrete instance named by the claim: from
congestion avoidance with `cwnd = 20` (and `ssthresh = 64`), three duplicate
acks yield `ssthresh = 10`, `cwnd = 13`, state `fast_recovery`. -/
theorem c5_witness :
    (on_ack_received (on_ack_received (on_ack_received
        ⟨20, 64, .congestion_avoidance, 0⟩ true) true) true).ssthresh = 10 ∧
    (on_ack_received (on_ack_received (on_ack_received
        ⟨20, 64, .congestion_avoidance, 0⟩ true) true) true).cwnd = 13 ∧
    (on_ack_received (on_ack_received (on_ack_received
        ⟨20, 64, .congestion_avoidance, 0⟩ true) true) true).state = .fast_recovery := by
  obtain ⟨h1, h2, h3⟩ :=
    c5_triple_duplicate_transition ⟨20, 64, .congestion_avoidance, 0⟩ (Or.inr rfl) rfl
  have hss : ((max ⌊(20 : ℚ) / 2⌋ 2 : ℤ) : ℚ) = 10 := by norm_num
  refine ⟨by rw [h1, hss], by rw [h2, h1, hss]; norm_num, h3⟩

/-- C6 counterexample: after the third duplicate ack the controller is in
fast recovery with `dup_ack_count = 3`; a fourth duplicate ack, processed
while already in fast recovery, again satisfies the sender's retransmission
condition `state == "fast_recovery" and dup_ack_count >= 3`, so the
window-base segment is retransmitted again — not only on the duplicate ack
that entered fast recovery. -/
theorem c6_counterexample :
    ((ccRun [CCEvent.dupAck, .dupAck, .dupAck]).state = .fast_recovery ∧
      (ccRun [CCEvent.dupAck, .dupAck, .dupAck]).dup_ack_count = 3) ∧
    (dupAckStep (ccRun [CCEvent.dupAck, .dupAck, .dupAck])).2 = true := by
  norm_num [ccRun, ccApply, ccInit, dupAckStep, on_ack_received, on_triple_duplicate_ack,
    DUP_ACK_THRESHOLD, INITIAL_CWND, INITIAL_SSTHRESH]

/-- C6 amended: starting from slow start or congestion avoidance with
`dup_ack_count = 0`, the fast-retransmit condition of p2_server.py lines
144-145 is false on the first and second duplicate acks, true on the third
(which enters fast recovery), and — because a duplicate ack in fast recovery
changes neither the state nor the counter — true again on every further
duplicate ack processed while the controller remains in fast recovery. -/
theorem c6_fast_retransmit_every_dup_in_fr (c : CongestionControl)
    (hs : c.state = .slow_start ∨ c.state = .congestion_avoidance)
    (hd : c.dup_ack_count = 0) :
    (dupAckStep c).2 = false ∧
    (dupAckStep (dupAckStep c).1).2 = false ∧
    (dupAckStep (dupAckStep (dupAckStep c).1).1).2 = true ∧
    (∀ c' : CongestionControl, c'.state = .fast_recovery → 3 ≤ c'.dup_ack_count →
      (dupAckStep c').2 = true ∧ (dupAckStep c').1.state = .fast_recovery ∧
        3 ≤ (dupAckStep c').1.dup_ack_count) := by
  refine ⟨?_, ?_, ?_, ?_⟩
  · obtain ⟨w, s, st, d⟩ := c
    simp only at hd
    subst hd
    rcases hs with hst | hst <;>
      · simp only at hst
        subst hst
        simp [dupAckStep, on_ack_received, DUP_ACK_THRESHOLD]
  · obtain ⟨w, s, st, d⟩ := c
    simp only at hd
    subst hd
    rcases hs with hst | hst <;>
      · simp only at hst
        subst hst
        simp [dupAckStep, on_ack_received, DUP_ACK_THRESHOLD]
  · obtain ⟨w, s, st, d⟩ := c
    simp only at hd
    subst hd
    rcases hs with hst | hst <;>
      · simp only at hst
        subst hst
        simp [dupAckStep, on_ack_received, on_triple_duplicate_ack, DUP_ACK_THRESHOLD]
  · rintro ⟨w, s, st, d⟩ hst hd3
    simp only at hst hd3
    subst hst
    simp [dupAckStep, on_ack_received, DUP_ACK_THRESHOLD]
    exact hd3

/-- Witness for C6 (amended) at a concrete input: from congestion avoidance
with `cwnd = 20` and counter 0, the retransmission fires exactly from the
third duplicate ack onwards. -/
theorem c6_witness :
    (dupAckStep ⟨20, 64, .congestion_avoidance, 0⟩).2 = false ∧
    (dupAckStep (dupAckStep ⟨20, 64, .congestion_avoidance, 0⟩).1).2 = false ∧
    (dupAckStep (dupAckStep (dupAckStep ⟨20, 64, .congestion_avoidance, 0⟩).1).1).2 = true ∧
    (dupAckStep ⟨16, 6, .fast_recovery, 3⟩).2 = true := by
  obtain ⟨h1, h2, h3, h4⟩ :=
    c6_fast_retransmit_every_dup_in_fr ⟨20, 64, .congestion_avoidance, 0⟩ (Or.inr rfl) rfl
  exact ⟨h1, h2, h3, (h4 ⟨16, 6, .fast_recovery, 3⟩ rfl (by norm_num)).1⟩

/-! ## RTT estimator claims (C7, C8) -/

/-- C7: the estimator's observe operation follows the Jacobson/Karels
formulas — on the first sample `srtt = rtt` and `rttvar = rtt / 2`, on
subsequent samples `rttvar = 0.75*rttvar + 0.25*|srtt - rtt|` and
`srtt = 0.875*srtt + 0.125*rtt` — with `timeout = srtt + 4*rttvar`
recomputed after each sample; in particular `observe(100)` from the initial
state yields `srtt = 100` and `timeout = 300`, and a following
`observe(200)` yields `srtt = 112.5`. -/
theorem c7_rtt_estimator_update (st : RTTEstimator) (rtt srtt rttvar : ℚ) :
    (st.est = none →
      st.update rtt = { est := some (rtt, rtt / 2), timeout := rtt + 4 * (rtt / 2) }) ∧
    (st.est = some (srtt, rttvar) →
      st.update rtt =
        { est := some (0.875 * srtt + 0.125 * rtt, 0.75 * rttvar + 0.25 * |srtt - rtt|)
          timeout := (0.875 * srtt + 0.125 * rtt)
                       + 4 * (0.75 * rttvar + 0.25 * |srtt - rtt|) }) ∧
    ((rttRun [100]).est = some (100, 50) ∧ (rttRun [100]).timeout = 300) ∧
    ((rttRun [100, 200]).est = some (112.5, 62.5)) := by
  refine ⟨?_, ?_, ?_, ?_⟩
  · intro h
    simp only [RTTEstimator.update, h]
  · intro h
    simp only [RTTEstimator.update, h]
    norm_num
  · norm_num [rttRun, rttInit, RTTEstimator.update]
  · norm_num [rttRun, rttInit, RTTEstimator.update]

/-- Witness for C7: both formulas applied at concrete states — the first
sample 100 from the initial (unset) state, then the sample 200 from the
state holding `srtt = 100`, `rttvar = 50`. -/
theorem c7_witness :
    rttInit.update 100 = { est := some (100, 100 / 2), timeout := 100 + 4 * (100 / 2) } ∧
    RTTEstimator.update { est := some (100, 50), timeout := 300 } 200 =
      { est := some (0.875 * 100 + 0.125 * 200, 0.75 * 50 + 0.25 * |100 - 200|)
        timeout := (0.875 * 100 + 0.125 * 200)
                     + 4 * (0.75 * 50 + 0.25 * |(100 : ℚ) - 200|) } := by
  exact ⟨(c7_rtt_estimator_update rttInit 100 0 0).1 rfl,
    (c7_rtt_estimator_update { est := some (100, 50), timeout := 300 } 200 100 50).2.1 rfl⟩

/-- C8 counterexample: the source computes `timeout = srtt + 4 * rttvar`
with no positive floor; on observing the non-negative sample 0 from the
initial state, the exposed timeout becomes exactly 0, so it is not bounded
below by any fixed positive minimum. -/
theorem c8_counterexample :
    (rttRun [0]).timeout = 0 ∧ ¬ (0 < (rttRun [0]).timeout) := by
  norm_num [rttRun, rttInit, RTTEstimator.update, INITIAL_TIMEOUT]

/-- C8 amended: after every finite sequence of non-negative samples the
exposed timeout is non-negative (the initial timeout is the positive
constant 1), but there is no positive floor: the timeout can reach exactly 0
(see the counterexample). -/
theorem c8_timeout_nonneg (samples : List ℚ) (h : ∀ x ∈ samples, 0 ≤ x) :
    0 ≤ (rttRun samples).timeout := by
  have main : ∀ (l : List ℚ) (st : RTTEstimator), (∀ x ∈ l, 0 ≤ x) →
      0 ≤ st.timeout → (∀ p, st.est = some p → 0 ≤ p.1 ∧ 0 ≤ p.2) →
      0 ≤ (l.foldl RTTEstimator.update st).timeout := by
    intro l
    induction l with
    | nil => intro st _ ht _; exact ht
    | cons x l ih =>
        intro st hx ht hest
        have hx0 : (0 : ℚ) ≤ x := hx x (by simp)
        have hl : ∀ y ∈ l, (0 : ℚ) ≤ y := fun y hy => hx y (by simp [hy])
        refine ih (st.update x) hl ?_ ?_
        · cases hst : st.est with
          | none => simp only [RTTEstimator.update, hst]; linarith
          | some p =>
              obtain ⟨hs, hv⟩ := hest p hst
              obtain ⟨s, v⟩ := p
              simp only at hs hv
              have habs : (0 : ℚ) ≤ |s - x| := abs_nonneg _
              simp only [RTTEstimator.update, hst]
              linarith
        · cases hst : st.est with
          | none =>
              intro p hp
              simp only [RTTEstimator.update, hst, Option.some.injEq] at hp
              obtain ⟨s, v⟩ := p
              simp only [Prod.mk.injEq] at hp
              constructor <;> [(rw [← hp.1]); (rw [← hp.2])] <;> [exact hx0; linarith]
          | some q =>
              intro p hp
              obtain ⟨hs, hv⟩ := hest q hst
              obtain ⟨s, v⟩ := q
              simp only at hs hv
              have habs : (0 : ℚ) ≤ |s - x| := abs_nonneg _
              simp only [RTTEstimator.update, hst, Option.some.injEq] at hp
              obtain ⟨sp, vp⟩ := p
              simp only [Prod.mk.injEq] at hp
              constructor <;> [(rw [← hp.1]); (rw [← hp.2])] <;> linarith
  refine main samples rttInit h (by norm_num [rttInit, INITIAL_TIMEOUT]) ?_
  intro p hp
  simp [rttInit] at hp

/-- Witness for C8 (amended): the timeout after the non-negative samples
100, 200, 0 is non-negative. -/
theorem c8_witness :
    (∀ x ∈ [(100 : ℚ), 200, 0], 0 ≤ x) ∧ 0 ≤ (rttRun [100, 200, 0]).timeout :=
  ⟨by norm_num, c8_timeout_nonneg [100, 200, 0] (by norm_num)⟩

/-! ### Receiver session (p2_client.py, receive_file, lines 47-88)

The receiver state after the `with open(...)` header: the `expected_seq_num`
cursor, the out-of-order `buffer` (a Python dict from sequence number to
payload bytes, modelled as an association list whose insert replaces any
existing binding), the `received_packets` set (modelled as the list of
elements added to it), and the contents written to the output file so far
(as the list of written chunks). -/

structure ReceiverState where
  expected_seq_num : ℕ
  buffer : List (ℕ × List ℕ)
  received_packets : List ℕ
  outFile : List (List ℕ)
  deriving DecidableEq, Repr

/-- Initial receiver state (`expected_seq_num = 0`, empty buffer, empty
received set, empty output file). -/
def receiverInit : ReceiverState := ⟨0, [], [], []⟩

/-- Dict membership/lookup `seq in buffer` / `buffer[seq]`. -/
def bufLookup (k : ℕ) : List (ℕ × List ℕ) → Option (List ℕ)
  | [] => none
  | p :: rest => if p.1 = k then some p.2 else bufLookup k rest

/-- Dict deletion `del buffer[k]`. -/
def bufErase (k : ℕ) (B : List (ℕ × List ℕ)) : List (ℕ × List ℕ) :=
  B.filter (fun p => p.1 ≠ k)

/-- Dict assignment `buffer[k] = v` (replaces any existing binding). -/
def bufInsert (k : ℕ) (v : List ℕ) (B : List (ℕ × List ℕ)) : List (ℕ × List ℕ) :=
  (k, v) :: bufErase k B

/-- The drain loop of p2_client.py lines 70-74:
`while expected_seq_num in buffer: file.write(buffer[expected_seq_num]);
expected_seq_num += 1; del buffer[expected_seq_num-1]`.
Written with explicit fuel so that it computes by kernel reduction; each
iteration removes one buffer entry, so fuel `B.length + 1` always suffices
(see `writeLoop_spec`). -/
def writeLoop : ℕ → ℕ → List (ℕ × List ℕ) → List (List ℕ) →
    ℕ × List (ℕ × List ℕ) × List (List ℕ)
  | 0, e, B, out => (e, B, out)
  | fuel + 1, e, B, out =>
      match bufLookup e B with
      | some d => writeLoop fuel (e + 1) (bufErase e B) (out ++ [d])
      | none => (e, B, out)

/-- One iteration of the receiver loop on a decoded data segment with
sequence number `s` (p2_client.py lines 62-85); the segment with sequence
number `s` always carries payload `payload s`.  The `if seq_num not in
received_packets` guard skips the whole body (in particular, no ack is
re-sent in the source either); the `elif seq_num > expected_seq_num` branch
buffers the payload without adding `s` to `received_packets`, exactly as in
the source. -/
def processSegment (payload : ℕ → List ℕ) (st : ReceiverState) (s : ℕ) : ReceiverState :=
  if s ∈ st.received_packets then st
  else if s = st.expected_seq_num then
    let out1 := st.outFile ++ [payload s]
    let r := writeLoop (st.buffer.length + 1) (st.expected_seq_num + 1) st.buffer out1
    ⟨r.1, r.2.1, s :: st.received_packets, r.2.2⟩
  else if s > st.expected_seq_num then
    { st with buffer := bufInsert s (payload s) st.buffer }
  else st

/-- The receiver state after a finite sequence of data-segment arrivals. -/
def receiverRun (payload : ℕ → List ℕ) (arrivals : List ℕ) : ReceiverState :=
  arrivals.foldl (processSegment payload) receiverInit

/-! ## Receiver-session lemmas (C1) -/

lemma bufLookup_eq_none {k : ℕ} {B : List (ℕ × List ℕ)} (h : bufLookup k B = none) :
    ∀ p ∈ B, p.1 ≠ k := by
  induction B with
  | nil => intro p hp; simp at hp
  | cons q B ih =>
      intro p hp
      by_cases hq : q.1 = k
      · simp [bufLookup, hq] at h
      · simp only [bufLookup, hq, if_false] at h
        rcases List.mem_cons.mp hp with rfl | hp
        · exact hq
        · exact ih h p hp

lemma bufLookup_eq_some {k : ℕ} {d : List ℕ} {B : List (ℕ × List ℕ)}
    (h : bufLookup k B = some d) : ∃ p ∈ B, p.1 = k ∧ p.2 = d := by
  induction B with
  | nil => simp [bufLookup] at h
  | cons q B ih =>
      by_cases hq : q.1 = k
      · simp only [bufLookup, hq, if_true, Option.some.injEq] at h
        exact ⟨q, by simp, hq, h⟩
      · simp only [bufLookup, hq, if_false] at h
        obtain ⟨p, hp, h1, h2⟩ := ih h
        exact ⟨p, by simp [hp], h1, h2⟩

lemma mem_bufErase {k : ℕ} {B : List (ℕ × List ℕ)} {p : ℕ × List ℕ}
    (h : p ∈ bufErase k B) : p ∈ B ∧ p.1 ≠ k := by
  simpa [bufErase] using h

lemma bufErase_length_lt {k : ℕ} {B : List (ℕ × List ℕ)}
    (h : ∃ p ∈ B, p.1 = k) : (bufErase k B).length < B.length := by
  induction B with
  | nil => simp at h
  | cons q B ih =>
      by_cases hq : q.1 = k
      · simp only [bufErase, List.filter_cons, hq, decide_not]
        simp only [decide_True, Bool.not_true, if_false]
        have : (List.filter (fun p => !decide (p.1 = k)) B).length ≤ B.length :=
          List.length_filter_le _ _
        simpa [bufErase] using Nat.lt_succ_of_le this
      · obtain ⟨p, hp, hpk⟩ := h
        rcases List.mem_cons.mp hp with rfl | hp
        · exact absurd hpk hq
        · have := ih ⟨p, hp, hpk⟩
          simp only [bufErase, List.filter_cons, decide_not, hq] at *
          simp only [decide_False, Bool.not_false, if_true]
          simpa [bufErase, List.length_cons] using Nat.succ_lt_succ this

/-- Full correctness of the drain loop, for any sufficient fuel. -/
lemma writeLoop_spec (payload : ℕ → List ℕ) :
    ∀ (fuel : ℕ) (e : ℕ) (B : List (ℕ × List ℕ)) (out : List (List ℕ)),
      B.length < fuel →
      (∀ p ∈ B, e ≤ p.1 ∧ p.2 = payload p.1) →
      out = (List.range e).map payload →
      e ≤ (writeLoop fuel e B out).1 ∧
      (writeLoop fuel e B out).2.2 = (List.range (writeLoop fuel e B out).1).map payload ∧
      (∀ p ∈ (writeLoop fuel e B out).2.1,
        (writeLoop fuel e B out).1 < p.1 ∧ p.2 = payload p.1) ∧
      (∀ k, (∃ p ∈ B, p.1 = k) →
        (∃ p ∈ (writeLoop fuel e B out).2.1, p.1 = k) ∨ k < (writeLoop fuel e B out).1) ∧
      (∀ k, e ≤ k → k < (writeLoop fuel e B out).1 → ∃ p ∈ B, p.1 = k) := by
  intro fuel
  induction fuel with
  | zero => intro e B out hf; omega
  | succ fuel ih =>
      intro e B out hf hB hout
      cases hlk : bufLookup e B with
      | none =>
          have hne := bufLookup_eq_none hlk
          simp only [writeLoop, hlk]
          refine ⟨le_refl e, hout, ?_, ?_, ?_⟩
          · intro p hp
            obtain ⟨h1, h2⟩ := hB p hp
            exact ⟨lt_of_le_of_ne h1 (fun he => hne p hp he.symm), h2⟩
          · intro k hk
            exact Or.inl hk
          · intro k h1 h2
            omega
      | some d =>
          obtain ⟨q, hq, hqk, hqd⟩ := bufLookup_eq_some hlk
          have hlen : (bufErase e B).length < fuel :=
            Nat.lt_of_lt_of_le (bufErase_length_lt ⟨q, hq, hqk⟩) (Nat.lt_succ_iff.mp hf)
          have hB' : ∀ p ∈ bufErase e B, e + 1 ≤ p.1 ∧ p.2 = payload p.1 := by
            intro p hp
            obtain ⟨hpB, hpk⟩ := mem_bufErase hp
            obtain ⟨h1, h2⟩ := hB p hpB
            exact ⟨lt_of_le_of_ne h1 (fun he => hpk he.symm), h2⟩
          have hd : d = payload e := by
            obtain ⟨h1, h2⟩ := hB q hq
            rw [← hqd, h2, hqk]
          have hout' : out ++ [d] = (List.range (e + 1)).map payload := by
            rw [hout, hd, List.range_succ, List.map_append, List.map_singleton]
          simp only [writeLoop, hlk]
          obtain ⟨g1, g2, g3, g4, g5⟩ := ih (e + 1) (bufErase e B) (out ++ [d]) hlen hB' hout'
          refine ⟨le_trans (Nat.le_succ e) g1, g2, g3, ?_, ?_⟩
          · intro k hk
            by_cases hke : k = e
            · subst hke
              right
              omega
            · obtain ⟨p, hp, hpk⟩ := hk
              have hp' : p ∈ bufErase e B := by
                simp only [bufErase, List.mem_filter, decide_not, Bool.not_eq_true',
                  decide_eq_false_iff_not]
                exact ⟨hp, by rw [hpk]; exact hke⟩
              exact g4 k ⟨p, hp', hpk⟩
          · intro k h1 h2
            by_cases hke : k = e
            · exact ⟨q, hq, by rw [hqk, hke]⟩
            · obtain ⟨p, hp, hpk⟩ := g5 k (by omega) h2
              exact ⟨p, (mem_bufErase hp).1, hpk⟩

/-- The receiver-loop invariant: the output file is exactly the ordered
payload prefix below the cursor, every buffered entry is beyond the cursor
and carries its segment's payload, every element of the received set is
below the cursor, every arrival so far is either delivered or buffered, and
every buffered key and every delivered index was really an arrival. -/
def RInv (payload : ℕ → List ℕ) (A : List ℕ) (st : ReceiverState) : Prop :=
  st.outFile = (List.range st.expected_seq_num).map payload ∧
  (∀ p ∈ st.buffer, st.expected_seq_num < p.1 ∧ p.2 = payload p.1) ∧
  (∀ s ∈ st.received_packets, s < st.expected_seq_num) ∧
  (∀ s ∈ A, s < st.expected_seq_num ∨ ∃ p ∈ st.buffer, p.1 = s) ∧
  (∀ p ∈ st.buffer, p.1 ∈ A) ∧
  (∀ k, k < st.expected_seq_num → k ∈ A)

lemma writeLoop_buffer_subset :
    ∀ (fuel : ℕ) (e : ℕ) (B : List (ℕ × List ℕ)) (out : List (List ℕ))
      (p : ℕ × List ℕ), p ∈ (writeLoop fuel e B out).2.1 → p ∈ B := by
  intro fuel
  induction fuel with
  | zero => intro e B out p hp; simpa [writeLoop] using hp
  | succ fuel ih =>
      intro e B out p hp
      cases hlk : bufLookup e B with
      | none => simpa [writeLoop, hlk] using hp
      | some d =>
          simp only [writeLoop, hlk] at hp
          exact (mem_bufErase (ih _ _ _ p hp)).1

lemma processSegment_inv (payload : ℕ → List ℕ) {A : List ℕ} {st : ReceiverState}
    (h : RInv payload A st) (s : ℕ) :
    RInv payload (A ++ [s]) (processSegment payload st s) := by
  obtain ⟨h1, h2, h3, h4, h5, h6⟩ := h
  by_cases hrec : s ∈ st.received_packets
  · unfold processSegment
    rw [if_pos hrec]
    refine ⟨h1, h2, h3, ?_, ?_, ?_⟩
    · intro t ht
      rcases List.mem_append.mp ht with ht | ht
      · exact h4 t ht
      · simp only [List.mem_singleton] at ht
        subst ht
        exact Or.inl (h3 t hrec)
    · exact fun p hp => List.mem_append.mpr (Or.inl (h5 p hp))
    · exact fun k hk => List.mem_append.mpr (Or.inl (h6 k hk))
  · by_cases heq : s = st.expected_seq_num
    · subst heq
      unfold processSegment
      rw [if_neg hrec, if_pos rfl]
      dsimp only [RInv]
      have hB : ∀ p ∈ st.buffer, st.expected_seq_num + 1 ≤ p.1 ∧ p.2 = payload p.1 :=
        fun p hp => ⟨(h2 p hp).1, (h2 p hp).2⟩
      have hout : st.outFile ++ [payload st.expected_seq_num]
          = (List.range (st.expected_seq_num + 1)).map payload := by
        rw [h1, List.range_succ, List.map_append, List.map_singleton]
      obtain ⟨g1, g2, g3, g4, g5⟩ := writeLoop_spec payload (st.buffer.length + 1)
        (st.expected_seq_num + 1) st.buffer (st.outFile ++ [payload st.expected_seq_num])
        (Nat.lt_succ_self _) hB hout
      refine ⟨g2, g3, ?_, ?_, ?_, ?_⟩
      · intro t ht
        rcases List.mem_cons.mp ht with rfl | ht
        · omega
        · have := h3 t ht
          omega
      · intro t ht
        rcases List.mem_append.mp ht with ht | ht
        · rcases h4 t ht with hlt | ⟨p, hp, hpk⟩
          · left; omega
          · exact (g4 t ⟨p, hp, hpk⟩).symm
        · simp only [List.mem_singleton] at ht
          subst ht
          left
          omega
      · intro p hp
        exact List.mem_append.mpr (Or.inl (h5 p (writeLoop_buffer_subset _ _ _ _ p hp)))
      · intro k hk
        by_cases hk1 : k < st.expected_seq_num
        · exact List.mem_append.mpr (Or.inl (h6 k hk1))
        · by_cases hk2 : k = st.expected_seq_num
          · subst hk2
            exact List.mem_append.mpr (Or.inr (by simp))
          · obtain ⟨p, hp, hpk⟩ := g5 k (by omega) hk
            exact List.mem_append.mpr (Or.inl (by rw [← hpk]; exact h5 p hp))
    · by_cases hgt : s > st.expected_seq_num
      · unfold processSegment
        rw [if_neg hrec, if_neg heq, if_pos hgt]
        refine ⟨h1, ?_, h3, ?_, ?_, fun k hk => List.mem_append.mpr (Or.inl (h6 k hk))⟩
        · intro p hp
          rcases List.mem_cons.mp hp with rfl | hp
          · exact ⟨hgt, rfl⟩
          · exact h2 p (mem_bufErase hp).1
        · intro t ht
          rcases List.mem_append.mp ht with ht | ht
          · rcases h4 t ht with hlt | ⟨p, hp, hpk⟩
            · exact Or.inl hlt
            · by_cases hts : t = s
              · exact Or.inr ⟨(s, payload s), by simp [bufInsert], by simp [hts]⟩
              · refine Or.inr ⟨p, ?_, hpk⟩
                simp only [bufInsert, List.mem_cons]
                right
                simp only [bufErase, List.mem_filter, decide_not, Bool.not_eq_true',
                  decide_eq_false_iff_not]
                exact ⟨hp, by rw [hpk]; exact hts⟩
          · simp only [List.mem_singleton] at ht
            subst ht
            exact Or.inr ⟨(t, payload t), by simp [bufInsert], rfl⟩
        · intro p hp
          rcases List.mem_cons.mp hp with rfl | hp
          · exact List.mem_append.mpr (Or.inr (by simp))
          · exact List.mem_append.mpr (Or.inl (h5 p (mem_bufErase hp).1))
      · unfold processSegment
        rw [if_neg hrec, if_neg heq, if_neg hgt]
        refine ⟨h1, h2, h3, ?_, ?_, fun k hk => List.mem_append.mpr (Or.inl (h6 k hk))⟩
        · intro t ht
          rcases List.mem_append.mp ht with ht | ht
          · exact h4 t ht
          · simp only [List.mem_singleton] at ht
            subst ht
            left
            omega
        · exact fun p hp => List.mem_append.mpr (Or.inl (h5 p hp))

lemma receiverRun_inv_aux (payload : ℕ → List ℕ) :
    ∀ (l A : List ℕ) (st : ReceiverState), RInv payload A st →
      RInv payload (A ++ l) (l.foldl (processSegment payload) st) := by
  intro l
  induction l with
  | nil => intro A st h; simpa using h
  | cons a l ih =>
      intro A st h
      have h' := processSegment_inv payload h a
      have := ih (A ++ [a]) _ h'
      simpa [List.append_assoc] using this

lemma receiverRun_inv (payload : ℕ → List ℕ) (arrivals : List ℕ) :
    RInv payload arrivals (receiverRun payload arrivals) := by
  have := receiverRun_inv_aux payload arrivals [] receiverInit
    (by simp [RInv, receiverInit])
  simpa [receiverRun] using this

/-- C1: for every finite sequence of data-segment arrivals whose sequence
numbers are exactly those of the transfer's segments `0..n-1` (each arriving
at least once, in any order and with arbitrary duplication), the receiver
ends with `expected_seq_num = n` and the output file is exactly the
concatenation of the unique segment payloads in ascending sequence order —
no gaps, no duplicated bytes.  Moreover re-processing any already-arrived
segment changes neither `expected_seq_num` nor the output file. -/
theorem c1_receiver_in_order_delivery (payload : ℕ → List ℕ) (n : ℕ) (arrivals : List ℕ)
    (h1 : ∀ s ∈ arrivals, s < n) (h2 : ∀ k, k < n → k ∈ arrivals) :
    (receiverRun payload arrivals).expected_seq_num = n ∧
    (receiverRun payload arrivals).outFile = (List.range n).map payload ∧
    (receiverRun payload arrivals).outFile.flatten
        = ((List.range n).map payload).flatten ∧
    (∀ s ∈ arrivals,
      (processSegment payload (receiverRun payload arrivals) s).expected_seq_num
          = (receiverRun payload arrivals).expected_seq_num ∧
      (processSegment payload (receiverRun payload arrivals) s).outFile
          = (receiverRun payload arrivals).outFile) := by
  obtain ⟨g1, g2, g3, g4, g5, g6⟩ := receiverRun_inv payload arrivals
  have hen : (receiverRun payload arrivals).expected_seq_num = n := by
    have hle : (receiverRun payload arrivals).expected_seq_num ≤ n := by
      by_contra hgt
      push_neg at hgt
      exact absurd (h1 n (g6 n hgt)) (lt_irrefl n)
    have hge : n ≤ (receiverRun payload arrivals).expected_seq_num := by
      by_contra hlt
      push_neg at hlt
      rcases g4 _ (h2 _ hlt) with h | ⟨p, hp, hpk⟩
      · omega
      · have := (g2 p hp).1
        omega
    omega
  refine ⟨hen, by rw [g1, hen], by rw [g1, hen], ?_⟩
  intro s hs
  rcases g4 s hs with hlt | ⟨p, hp, hpk⟩
  · by_cases hrec : s ∈ (receiverRun payload arrivals).received_packets
    · unfold processSegment
      rw [if_pos hrec]
      exact ⟨rfl, rfl⟩
    · have hne : ¬ s = (receiverRun payload arrivals).expected_seq_num := by omega
      have hngt : ¬ s > (receiverRun payload arrivals).expected_seq_num := by omega
      unfold processSegment
      rw [if_neg hrec, if_neg hne, if_neg hngt]
      exact ⟨rfl, rfl⟩
  · have hgt : (receiverRun payload arrivals).expected_seq_num < s := by
      have := (g2 p hp).1
      omega
    by_cases hrec : s ∈ (receiverRun payload arrivals).received_packets
    · unfold processSegment
      rw [if_pos hrec]
      exact ⟨rfl, rfl⟩
    · have hne : ¬ s = (receiverRun payload arrivals).expected_seq_num := by omega
      unfold processSegment
      rw [if_neg hrec, if_neg hne, if_pos hgt]
      exact ⟨rfl, rfl⟩

/-- Witness for C1: the arrival sequence `[1, 1, 0, 2, 0]` of the segments
`0, 1, 2` (reordered, with duplicates) delivers exactly the three payloads in
order, and re-delivering any of them changes nothing. -/
theorem c1_witness :
    (∀ s ∈ [1, 1, 0, 2, 0], s < 3) ∧ (∀ k, k < 3 → k ∈ [1, 1, 0, 2, 0]) ∧
    (receiverRun (fun i => [i, i + 10]) [1, 1, 0, 2, 0]).expected_seq_num = 3 ∧
    (receiverRun (fun i => [i, i + 10]) [1, 1, 0, 2, 0]).outFile
        = (List.range 3).map (fun i => [i, i + 10]) := by
  obtain ⟨w1, w2, _, _⟩ := c1_receiver_in_order_delivery (fun i => [i, i + 10]) 3
    [1, 1, 0, 2, 0] (by decide) (by decide)
  exact ⟨by decide, by decide, w1, w2⟩

/-! ### Sender session window model (p2_server.py, send_file, lines 95-155)

State of the sender's main loop: the congestion controller, `window_base`,
`seq_num` (the next sequence number to assign; the in-flight dict
`unacked_packets` always holds exactly the contiguous keys
`window_base..seq_num-1`, so its size is `seq_num - window_base`), the number
of unread MSS-sized chunks left in the source file, `last_ack_received`
(initialised to -1), and — for stating C3 — the `window` field carried by the
most recently received decodable acknowledgment (the source reads the ack
JSON object but never accesses its `window` member). -/

structure SenderState where
  cc : CongestionControl
  window_base : ℕ
  seq_num : ℕ
  remaining : ℕ
  last_ack_received : ℤ
  lastAdvertisedWindow : Option ℕ
  deriving DecidableEq, Repr

/-- Initial sender-loop state for a source file of `r` MSS-sized chunks
(p2_server.py lines 93-100). -/
def senderInit (r : ℕ) : SenderState :=
  { cc := ccInit, window_base := 0, seq_num := 0, remaining := r
    last_ack_received := -1, lastAdvertisedWindow := none }

/-- The number of in-flight segments `len(unacked_packets)`. -/
def SenderState.inflight (st : SenderState) : ℕ := st.seq_num - st.window_base

/-- The inner fill loop (lines 106-122): while `len(unacked_packets)` is
below the effective window, read a chunk (breaking when the source is
exhausted), send it and record it; returns the final in-flight count and
chunks remaining.  The effective window is computed once, before the loop
(line 104). -/
def fillLoop (ew : ℚ) : ℕ → ℕ → ℕ × ℕ
  | inflight, 0 => (inflight, 0)
  | inflight, r + 1 =>
      if (inflight : ℚ) < ew then fillLoop ew (inflight + 1) r else (inflight, r + 1)

/-- The fill phase of one outer-loop iteration (lines 103-122):
`effective_window = min(cc.cwnd, len(unacked_packets) + MSS)`, then the fill
loop. -/
def fillPhase (st : SenderState) : SenderState :=
  let ew : ℚ := min st.cc.cwnd ((st.inflight : ℚ) + (MSS : ℚ))
  let r := fillLoop ew st.inflight st.remaining
  { st with seq_num := st.window_base + r.1, remaining := r.2 }

/-- The wait-phase outcome of one outer-loop iteration (lines 124-150):
either a decodable acknowledgment `{'ack': a, 'window': w}` arrived, or the
receive timed out. -/
inductive SenderEvent where
  | ack (a : ℕ) (w : ℕ)
  | timeout
  deriving DecidableEq, Repr

/-- The wait phase (lines 124-150).  A decodable ack with
`ack > last_ack_received` advances `window_base` and drops the acknowledged
in-flight entries, then runs `on_ack_received(False)`; otherwise
`on_ack_received(True)` runs (possibly followed by the fast-recovery
retransmission, which does not change this state); on timeout `on_timeout`
runs and all in-flight segments are retransmitted (unchanged in-flight set). -/
def waitStep (st : SenderState) : SenderEvent → SenderState
  | .ack a w =>
      if (a : ℤ) > st.last_ack_received then
        { st with cc := on_ack_received st.cc false
                  last_ack_received := (a : ℤ)
                  window_base := a
                  lastAdvertisedWindow := some w }
      else
        { st with cc := on_ack_received st.cc true, lastAdvertisedWindow := some w }
  | .timeout => { st with cc := on_timeout st.cc }

/-- One outer-loop iteration: the fill phase followed by one wait-phase
outcome. -/
def senderIter (st : SenderState) (e : SenderEvent) : SenderState :=
  waitStep (fillPhase st) e

/-- The sender state after a finite sequence of wait-phase outcomes, starting
from a source file of `r` chunks. -/
def senderRun (r : ℕ) (evs : List SenderEvent) : SenderState :=
  evs.foldl senderIter (senderInit r)

/-! ## Sender window bound (C3) -/

lemma fillLoop_le (ew : ℚ) : ∀ (r inflight : ℕ),
    ((fillLoop ew inflight r).1 : ℤ) ≤ max (inflight : ℤ) ⌈ew⌉ := by
  intro r
  induction r with
  | zero => intro inflight; exact le_max_left _ _
  | succ r ih =>
      intro inflight
      by_cases h : (inflight : ℚ) < ew
      · have hlt : ((inflight : ℤ) : ℚ) < ew := by exact_mod_cast h
        have h1 : (inflight : ℤ) + 1 ≤ ⌈ew⌉ := Int.lt_ceil.mpr hlt
        have h2 : ((fillLoop ew inflight (r + 1)).1 : ℤ)
            ≤ max ((inflight + 1 : ℕ) : ℤ) ⌈ew⌉ := by
          simp only [fillLoop, if_pos h]
          exact ih (inflight + 1)
        refine le_trans h2 (max_le ?_ (le_max_right _ _))
        refine le_trans ?_ (le_max_right _ _)
        push_cast
        omega
      · simp only [fillLoop, if_neg h]
        exact le_max_left _ _

/-- C3 amended: a fill phase admits new segments only while the in-flight
count is below `min(cwnd, inflight + MSS)` — the receiver's advertised window
is never consulted (changing it changes nothing about the fill) — so after a
fill phase the in-flight count never exceeds
`max(in-flight count before the fill, ceil(cwnd))`.  A pre-existing larger
in-flight count (for example after a timeout shrank `cwnd`) is left as-is,
and there is no `floor`: with fractional `cwnd` the fill can stop at
`ceil(cwnd)` segments in flight. -/
theorem c3_fill_phase_window_bound (st : SenderState) :
    (((fillPhase st).inflight : ℤ) ≤ max (st.inflight : ℤ) ⌈st.cc.cwnd⌉) ∧
    (∀ w : Option ℕ, fillPhase { st with lastAdvertisedWindow := w }
        = { fillPhase st with lastAdvertisedWindow := w }) := by
  constructor
  · have h1 : (fillPhase st).inflight
        = (fillLoop (min st.cc.cwnd ((st.inflight : ℚ) + (MSS : ℚ))) st.inflight
            st.remaining).1 := by
      simp only [fillPhase, SenderState.inflight]
      omega
    rw [h1]
    refine le_trans (fillLoop_le _ st.remaining st.inflight) (max_le (le_max_left _ _) ?_)
    exact le_trans (Int.ceil_le_ceil (min_le_left _ _)) (le_max_right _ _)
  · intro w
    rfl

/-- C3 counterexample: the run `fill; ack 1 (window 65535); fill; timeout;
fill` of the sender loop (a 5-chunk source, the first segment acked, then a
retransmission timeout with 2 segments in flight) reaches a post-fill-phase
state with 2 segments in flight while `floor(cwnd) = 1` and the most recently
advertised receiver window is 65535, so the in-flight count exceeds
`min(floor(cwnd), advertised_window) = 1`. -/
theorem c3_counterexample :
    (fillPhase (senderRun 5 [SenderEvent.ack 1 65535, SenderEvent.timeout])).inflight = 2 ∧
    ⌊(fillPhase (senderRun 5 [SenderEvent.ack 1 65535, SenderEvent.timeout])).cc.cwnd⌋ = 1 ∧
    (fillPhase (senderRun 5 [SenderEvent.ack 1 65535,
        SenderEvent.timeout])).lastAdvertisedWindow = some 65535 ∧
    ¬ (((fillPhase (senderRun 5 [SenderEvent.ack 1 65535,
            SenderEvent.timeout])).inflight : ℤ)
        ≤ min ⌊(fillPhase (senderRun 5 [SenderEvent.ack 1 65535,
            SenderEvent.timeout])).cc.cwnd⌋ 65535) := by
  norm_num [senderRun, senderIter, senderInit, fillPhase, fillLoop, waitStep,
    SenderState.inflight, ccInit, ccApply, on_ack_received, on_timeout, INITIAL_CWND,
    INITIAL_SSTHRESH, MSS, DUP_ACK_THRESHOLD]

/-! ### Wire codec: UTF-8 (Python `bytes.decode('utf-8')` / `str.encode()`)

Byte strings are `List ℕ` of byte values, text strings are `List ℕ` of
Unicode code points. -/

/-- A Unicode scalar value: below 0x110000 and not a surrogate. -/
def validScalar (c : ℕ) : Prop := c < 1114112 ∧ (c < 55296 ∨ 57344 ≤ c)

instance (c : ℕ) : Decidable (validScalar c) := by
  unfold validScalar
  infer_instance

/-- UTF-8 encoding of one scalar value (as produced by `str.encode()`). -/
def utf8EncodeChar (c : ℕ) : List ℕ :=
  if c < 128 then [c]
  else if c < 2048 then [192 + c / 64, 128 + c % 64]
  else if c < 65536 then [224 + c / 4096, 128 + c / 64 % 64, 128 + c % 64]
  else [240 + c / 262144, 128 + c / 4096 % 64, 128 + c / 64 % 64, 128 + c % 64]

/-- Python `str.encode('utf-8')` on a string of scalar values. -/
def utf8Encode : List ℕ → List ℕ
  | [] => []
  | c :: s => utf8EncodeChar c ++ utf8Encode s

/-- Strict UTF-8 decoding of one encoded character at the head of a byte
string: the code point and the remaining bytes.  Rejects stray continuation
bytes, overlong forms, surrogates, code points above 0x10FFFF, and truncated
sequences, exactly as Python's strict `bytes.decode('utf-8')` does. -/
def utf8DecodeChar : List ℕ → Option (ℕ × List ℕ)
  | [] => none
  | b :: rest =>
      if b < 128 then some (b, rest)
      else if b < 194 then none
      else if b < 224 then
        match rest with
        | b1 :: r =>
            if 128 ≤ b1 ∧ b1 < 192 then
              some ((b - 192) * 64 + (b1 - 128), r)
            else none
        | [] => none
      else if b < 240 then
        match rest with
        | b1 :: b2 :: r =>
            if (128 ≤ b1 ∧ b1 < 192) ∧ (128 ≤ b2 ∧ b2 < 192)
                ∧ (b = 224 → 160 ≤ b1) ∧ (b = 237 → b1 < 160) then
              some ((b - 224) * 4096 + (b1 - 128) * 64 + (b2 - 128), r)
            else none
        | _ => none
      else if b < 245 then
        match rest with
        | b1 :: b2 :: b3 :: r =>
            if (128 ≤ b1 ∧ b1 < 192) ∧ (128 ≤ b2 ∧ b2 < 192) ∧ (128 ≤ b3 ∧ b3 < 192)
                ∧ (b = 240 → 144 ≤ b1) ∧ (b = 244 → b1 < 144) then
              some ((b - 240) * 262144 + (b1 - 128) * 4096 + (b2 - 128) * 64
                + (b3 - 128), r)
            else none
        | _ => none
      else none

/-- The decoding loop; each decoded character consumes at least one byte, so
fuel equal to the byte-string length always suffices. -/
def utf8DecodeLoop : ℕ → List ℕ → Option (List ℕ)
  | _, [] => some []
  | 0, _ :: _ => none
  | fuel + 1, b :: rest =>
      match utf8DecodeChar (b :: rest) with
      | none => none
      | some (c, r) => (utf8DecodeLoop fuel r).map (c :: ·)

/-- Python `bytes.decode('utf-8')` (strict); a failure
(`UnicodeDecodeError`) is `none`. -/
def utf8Decode (l : List ℕ) : Option (List ℕ) := utf8DecodeLoop l.length l

/-! ### Wire codec: JSON (`json.dumps` / `json.loads`)

`json.dumps` is modelled exactly for the flat objects this protocol
serializes (string keys; integer, string and boolean values; default
separators `', '` and `': '`; default `ensure_ascii=True`, which escapes
every code point outside printable ASCII).  `json.loads` is modelled on the
resulting canonical texts (the parser follows the canonical grammar; the
whitespace liberality of `json.loads` on other texts is irrelevant here, and
a string escape `\uXXXX` carrying a lone surrogate is folded into the parse
failure that Python would raise on the subsequent `.encode()`). -/

inductive JVal where
  | jint (n : ℤ)
  | jstr (s : List ℕ)
  | jbool (b : Bool)
  deriving DecidableEq, Repr

/-- Lowercase hex digit, as `json.dumps` emits in `\uXXXX` escapes. -/
def hexDigitChar (n : ℕ) : ℕ := if n < 10 then 48 + n else 87 + n

/-- A `\uXXXX` escape for a code unit `u < 0x10000`. -/
def uEscape (u : ℕ) : List ℕ :=
  [92, 117, hexDigitChar (u / 4096 % 16), hexDigitChar (u / 256 % 16),
   hexDigitChar (u / 16 % 16), hexDigitChar (u % 16)]

/-- `json.dumps` escaping of one string character with `ensure_ascii=True`:
quote, backslash and the short control escapes use two-character escapes,
every other character outside `0x20..0x7E` becomes `\uXXXX` (a surrogate
pair for code points beyond 0xFFFF), and printable ASCII is literal. -/
def escapeChar (c : ℕ) : List ℕ :=
  if c = 34 then [92, 34]
  else if c = 92 then [92, 92]
  else if c = 8 then [92, 98]
  else if c = 9 then [92, 116]
  else if c = 10 then [92, 110]
  else if c = 12 then [92, 102]
  else if c = 13 then [92, 114]
  else if 32 ≤ c ∧ c ≤ 126 then [c]
  else if c < 65536 then uEscape c
  else uEscape (55296 + (c - 65536) / 1024) ++ uEscape (56320 + (c - 65536) % 1024)

def escapeString : List ℕ → List ℕ
  | [] => []
  | c :: s => escapeChar c ++ escapeString s

/-- Decimal digits of `n` (explicit fuel; `natToDec` supplies enough). -/
def natToDecAux : ℕ → ℕ → List ℕ
  | 0, _ => []
  | fuel + 1, n => if n < 10 then [48 + n] else natToDecAux fuel (n / 10) ++ [48 + n % 10]

def natToDec (n : ℕ) : List ℕ := natToDecAux (n + 1) n

/-- `json.dumps` of an integer. -/
def dumpInt (n : ℤ) : List ℕ := if n < 0 then 45 :: natToDec n.natAbs else natToDec n.toNat

def dumpVal : JVal → List ℕ
  | .jint n => dumpInt n
  | .jstr s => 34 :: (escapeString s ++ [34])
  | .jbool true => [116, 114, 117, 101]
  | .jbool false => [102, 97, 108, 115, 101]

/-- One `"key": value` member. -/
def dumpPair (p : List ℕ × JVal) : List ℕ := 34 :: (p.1 ++ [34, 58, 32] ++ dumpVal p.2)

/-- The members of an object joined by `', '`. -/
def dumpPairs : List (List ℕ × JVal) → List ℕ
  | [] => []
  | [p] => dumpPair p
  | p :: ps => dumpPair p ++ [44, 32] ++ dumpPairs ps

/-- `json.dumps` of a flat object (insertion-ordered keys, as Python dicts). -/
def dumps (obj : List (List ℕ × JVal)) : List ℕ := 123 :: (dumpPairs obj ++ [125])

def hexVal (c : ℕ) : Option ℕ :=
  if 48 ≤ c ∧ c ≤ 57 then some (c - 48)
  else if 97 ≤ c ∧ c ≤ 102 then some (c - 87)
  else if 65 ≤ c ∧ c ≤ 70 then some (c - 55)
  else none

def read4Hex : List ℕ → Option (ℕ × List ℕ)
  | c1 :: c2 :: c3 :: c4 :: rest =>
      match hexVal c1, hexVal c2, hexVal c3, hexVal c4 with
      | some d1, some d2, some d3, some d4 =>
          some (((d1 * 16 + d2) * 16 + d3) * 16 + d4, rest)
      | _, _, _, _ => none
  | _ => none

def shortUnescape (e : ℕ) : Option ℕ :=
  if e = 34 then some 34
  else if e = 92 then some 92
  else if e = 47 then some 47
  else if e = 98 then some 8
  else if e = 102 then some 12
  else if e = 110 then some 10
  else if e = 114 then some 13
  else if e = 116 then some 9
  else none

/-- Reads a JSON string body (after the opening quote) up to and including
the closing quote, unescaping as `json.loads` does; surrogate pairs are
recombined, and a lone surrogate is a failure (Python would raise on the
`.encode()` that every parsed string here immediately undergoes).  The fuel
decreases once per produced character; any `fuel > ` length of the encoded
body suffices. -/
def readStrBody : ℕ → List ℕ → Option (List ℕ × List ℕ)
  | 0, _ => none
  | _ + 1, [] => none
  | fuel + 1, c :: rest =>
      if c = 34 then some ([], rest)
      else if c = 92 then
        match rest with
        | [] => none
        | e :: rest2 =>
            if e = 117 then
              match read4Hex rest2 with
              | none => none
              | some (u, rest3) =>
                  if 55296 ≤ u ∧ u < 56320 then
                    match rest3 with
                    | 92 :: 117 :: rest4 =>
                        match read4Hex rest4 with
                        | none => none
                        | some (u2, rest5) =>
                            if 56320 ≤ u2 ∧ u2 < 57344 then
                              (readStrBody fuel rest5).map
                                (fun p =>
                                  ((65536 + (u - 55296) * 1024 + (u2 - 56320)) :: p.1, p.2))
                            else none
                    | _ => none
                  else if 56320 ≤ u ∧ u < 57344 then none
                  else (readStrBody fuel rest3).map (fun p => (u :: p.1, p.2))
            else
              match shortUnescape e with
              | some c2 => (readStrBody fuel rest2).map (fun p => (c2 :: p.1, p.2))
              | none => none
      else (readStrBody fuel rest).map (fun p => (c :: p.1, p.2))

def readDigits : ℕ → List ℕ → ℕ × List ℕ
  | acc, [] => (acc, [])
  | acc, c :: rest =>
      if 48 ≤ c ∧ c ≤ 57 then readDigits (acc * 10 + (c - 48)) rest else (acc, c :: rest)

/-- Reads a (possibly negative) decimal integer, greedily, requiring at
least one digit. -/
def readInt : List ℕ → Option (ℤ × List ℕ)
  | [] => none
  | c :: rest =>
      if c = 45 then
        match rest with
        | d :: _ =>
            if 48 ≤ d ∧ d ≤ 57 then
              some (-((readDigits 0 rest).1 : ℤ), (readDigits 0 rest).2)
            else none
        | [] => none
      else if 48 ≤ c ∧ c ≤ 57 then
        some (((readDigits 0 (c :: rest)).1 : ℤ), (readDigits 0 (c :: rest)).2)
      else none

def parseVal (fuel : ℕ) : List ℕ → Option (JVal × List ℕ)
  | [] => none
  | c :: rest =>
      if c = 34 then (readStrBody fuel rest).map (fun p => (JVal.jstr p.1, p.2))
      else if c = 116 then
        match rest with
        | 114 :: 117 :: 101 :: r => some (.jbool true, r)
        | _ => none
      else if c = 102 then
        match rest with
        | 97 :: 108 :: 115 :: 101 :: r => some (.jbool false, r)
        | _ => none
      else (readInt (c :: rest)).map (fun p => (JVal.jint p.1, p.2))

def parsePairs : ℕ → List ℕ → Option (List (List ℕ × JVal) × List ℕ)
  | 0, _ => none
  | fuel + 1, l =>
      match l with
      | 34 :: rest =>
          match readStrBody fuel rest with
          | none => none
          | some (k, rest2) =>
              match rest2 with
              | 58 :: 32 :: rest3 =>
                  match parseVal fuel rest3 with
                  | none => none
                  | some (v, rest4) =>
                      match rest4 with
                      | 44 :: 32 :: rest5 =>
                          (parsePairs fuel rest5).map (fun p => ((k, v) :: p.1, p.2))
                      | _ => some ([(k, v)], rest4)
              | _ => none
      | _ => none

/-- `json.loads` on the canonical texts produced by `dumps`. -/
def parseJson (l : List ℕ) : Option (List (List ℕ × JVal)) :=
  match l with
  | 123 :: rest =>
      match rest with
      | [125] => some []
      | _ =>
          match parsePairs l.length rest with
          | some (ps, [125]) => some ps
          | _ => none
  | _ => none

/-- Python dict indexing `obj[key]` on the parsed object. -/
def lookupKey (key : List ℕ) : List (List ℕ × JVal) → Option JVal
  | [] => none
  | p :: ps => if p.1 = key then some p.2 else lookupKey key ps

/-! ### Packet layer (p2_server.py create_packet; p2_client.py lines 53-60;
p2_client.py send_ack; p2_server.py lines 126-128) -/

def seqKey : List ℕ := [115, 101, 113]

def lengthKey : List ℕ := [108, 101, 110, 103, 116, 104]

def dataKey : List ℕ := [100, 97, 116, 97]

def ackKey : List ℕ := [97, 99, 107]

def windowKey : List ℕ := [119, 105, 110, 100, 111, 119]

def endKey : List ℕ := [101, 110, 100]

/-- `create_packet` (p2_server.py lines 157-166):
`json.dumps({'seq': seq_num, 'length': len(data), 'data': data.decode()}).encode()`.
`data.decode()` raises `UnicodeDecodeError` when `data` is not valid UTF-8;
that failure is modelled as `none`. -/
def create_packet (seq_num : ℕ) (data : List ℕ) : Option (List ℕ) :=
  (utf8Decode data).map (fun s =>
    utf8Encode (dumps [(seqKey, .jint (seq_num : ℤ)), (lengthKey, .jint (data.length : ℤ)),
      (dataKey, .jstr s)]))

/-- Python truthiness of a JSON value, as used by `packet_data['end']`. -/
def jTruthy : JVal → Bool
  | .jint n => if n = 0 then false else true
  | .jstr s => !s.isEmpty
  | .jbool b => b

inductive ReceiverMsg where
  | endMsg
  | dataMsg (seq : ℤ) (payload : List ℕ)
  deriving DecidableEq, Repr

/-- The receiver's decoding of one datagram (p2_client.py lines 53-60):
`json.loads(packet.decode())`, the `'end' in packet_data and
packet_data['end']` check, then `packet_data['seq']` and
`packet_data['data'].encode()`.  Any raised exception
(`UnicodeDecodeError`, `JSONDecodeError`, `KeyError`, an `'data'` value that
is not a string) is `none`. -/
def decodeClientMsg (bytes : List ℕ) : Option ReceiverMsg :=
  match utf8Decode bytes with
  | none => none
  | some text =>
      match parseJson text with
      | none => none
      | some obj =>
          if (match lookupKey endKey obj with
              | some v => jTruthy v
              | none => false) then
            some .endMsg
          else
            match lookupKey seqKey obj, lookupKey dataKey obj with
            | some (.jint s), some (.jstr d) => some (.dataMsg s (utf8Encode d))
            | _, _ => none

/-- The receiver loop's handling of one received datagram: only
`socket.timeout` is caught (p2_client.py line 86), so an undecodable
datagram raises an uncaught exception out of `receive_file`, modelled as
`Except.error ()`. -/
def receiverDispatch (bytes : List ℕ) : Except Unit ReceiverMsg :=
  match decodeClientMsg bytes with
  | none => .error ()
  | some m => .ok m

/-- The sender's parse of a received acknowledgment datagram (p2_server.py
lines 126-128): `json.loads(ack_packet.decode())['ack']`; the `window`
member is also extracted here because C3/C4 are stated about it (the client
always sends it, the server never reads it).  Any exception is `none`. -/
def parseAckPacket (bytes : List ℕ) : Option (ℤ × Option ℤ) :=
  match utf8Decode bytes with
  | none => none
  | some text =>
      match parseJson text with
      | none => none
      | some obj =>
          match lookupKey ackKey obj with
          | some (.jint a) =>
              some (a, match lookupKey windowKey obj with
                       | some (.jint w) => some w
                       | _ => none)
          | _ => none

/-- The wait phase at the byte level (p2_server.py lines 124-150): `none`
models a `socket.timeout` (the only exception the `try` catches); on a
received datagram, a failed decode raises out of `send_file`
(`Except.error ()`).  On success the ack branch of `waitStep` runs; the
conversions reflect that every ack the client's `send_ack` produces carries
a natural ack number and a natural window. -/
def senderWaitDatagram (st : SenderState) (dgram : Option (List ℕ)) :
    Except Unit SenderState :=
  match dgram with
  | none => .ok (waitStep st .timeout)
  | some bytes =>
      match parseAckPacket bytes with
      | none => .error ()
      | some (a, w) => .ok (waitStep st (.ack a.toNat ((w.getD 0).toNat)))

/-! ## Codec lemmas (C2, C4) -/


lemma utf8DecodeChar_sound {l : List ℕ} {c : ℕ} {r : List ℕ}
    (h : utf8DecodeChar l = some (c, r)) :
    utf8EncodeChar c ++ r = l ∧ validScalar c ∧ r.length < l.length := by
  match l with
  | [] => simp [utf8DecodeChar] at h
  | b :: rest =>
      by_cases h1 : b < 128
      · simp only [utf8DecodeChar, if_pos h1, Option.some.injEq, Prod.mk.injEq] at h
        obtain ⟨rfl, rfl⟩ := h
        refine ⟨?_, ⟨by omega, Or.inl (by omega)⟩, by simp only [List.length_cons]; omega⟩
        simp only [utf8EncodeChar, if_pos h1]
        rfl
      · by_cases h2 : b < 194
        · simp [utf8DecodeChar, if_neg h1, if_pos h2] at h
        · by_cases h3 : b < 224
          · match rest with
            | [] => simp [utf8DecodeChar, if_neg h1, if_neg h2, if_pos h3] at h
            | b1 :: r1 =>
                simp only [utf8DecodeChar, if_neg h1, if_neg h2, if_pos h3] at h
                by_cases hc : 128 ≤ b1 ∧ b1 < 192
                · rw [if_pos hc] at h
                  simp only [Option.some.injEq, Prod.mk.injEq] at h
                  obtain ⟨rfl, rfl⟩ := h
                  refine ⟨?_, ⟨by omega, Or.inl (by omega)⟩, by simp only [List.length_cons]; omega⟩
                  simp only [utf8EncodeChar]
                  rw [if_neg (by omega), if_pos (by omega)]
                  simp only [List.cons_append, List.nil_append, List.cons.injEq]
                  exact ⟨by omega, by omega, trivial⟩
                · rw [if_neg hc] at h
                  exact absurd h (by simp)
          · by_cases h4 : b < 240
            · match rest with
              | [] => simp [utf8DecodeChar, if_neg h1, if_neg h2, if_neg h3, if_pos h4] at h
              | [b1] => simp [utf8DecodeChar, if_neg h1, if_neg h2, if_neg h3, if_pos h4] at h
              | b1 :: b2 :: r1 =>
                  simp only [utf8DecodeChar, if_neg h1, if_neg h2, if_neg h3, if_pos h4] at h
                  by_cases hc : (128 ≤ b1 ∧ b1 < 192) ∧ (128 ≤ b2 ∧ b2 < 192)
                      ∧ (b = 224 → 160 ≤ b1) ∧ (b = 237 → b1 < 160)
                  · rw [if_pos hc] at h
                    simp only [Option.some.injEq, Prod.mk.injEq] at h
                    obtain ⟨rfl, rfl⟩ := h
                    obtain ⟨g1, g2, g3, g4⟩ := hc
                    refine ⟨?_, ⟨by omega, by omega⟩, by simp only [List.length_cons]; omega⟩
                    simp only [utf8EncodeChar]
                    rw [if_neg (by omega), if_neg (by omega), if_pos (by omega)]
                    simp only [List.cons_append, List.nil_append, List.cons.injEq]
                    exact ⟨by omega, by omega, by omega, trivial⟩
                  · rw [if_neg hc] at h
                    exact absurd h (by simp)
            · by_cases h5 : b < 245
              · match rest with
                | [] => simp [utf8DecodeChar, if_neg h1, if_neg h2, if_neg h3, if_neg h4,
                    if_pos h5] at h
                | [b1] => simp [utf8DecodeChar, if_neg h1, if_neg h2, if_neg h3, if_neg h4,
                    if_pos h5] at h
                | [b1, b2] => simp [utf8DecodeChar, if_neg h1, if_neg h2, if_neg h3,
                    if_neg h4, if_pos h5] at h
                | b1 :: b2 :: b3 :: r1 =>
                    simp only [utf8DecodeChar, if_neg h1, if_neg h2, if_neg h3, if_neg h4,
                      if_pos h5] at h
                    by_cases hc : (128 ≤ b1 ∧ b1 < 192) ∧ (128 ≤ b2 ∧ b2 < 192)
                        ∧ (128 ≤ b3 ∧ b3 < 192) ∧ (b = 240 → 144 ≤ b1)
                        ∧ (b = 244 → b1 < 144)
                    · rw [if_pos hc] at h
                      simp only [Option.some.injEq, Prod.mk.injEq] at h
                      obtain ⟨rfl, rfl⟩ := h
                      obtain ⟨g1, g2, g3, g4, g5⟩ := hc
                      refine ⟨?_, ⟨by omega, Or.inr (by omega)⟩, by simp only [List.length_cons]; omega⟩
                      simp only [utf8EncodeChar]
                      rw [if_neg (by omega), if_neg (by omega), if_neg (by omega)]
                      simp only [List.cons_append, List.nil_append, List.cons.injEq]
                      exact ⟨by omega, by omega, by omega, by omega, trivial⟩
                    · rw [if_neg hc] at h
                      exact absurd h (by simp)
              · simp [utf8DecodeChar, if_neg h1, if_neg h2, if_neg h3, if_neg h4,
                  if_neg h5] at h

lemma utf8DecodeLoop_sound : ∀ (fuel : ℕ) (l : List ℕ) (cs : List ℕ),
    l.length ≤ fuel → utf8DecodeLoop fuel l = some cs →
    utf8Encode cs = l ∧ ∀ c ∈ cs, validScalar c := by
  intro fuel
  induction fuel with
  | zero =>
      intro l cs hlen h
      rw [List.length_eq_zero.mp (Nat.le_zero.mp hlen)] at h ⊢
      simp only [utf8DecodeLoop, Option.some.injEq] at h
      subst h
      exact ⟨rfl, by simp⟩
  | succ fuel ih =>
      intro l cs hlen h
      cases l with
      | nil =>
          simp only [utf8DecodeLoop, Option.some.injEq] at h
          subst h
          exact ⟨rfl, by simp⟩
      | cons b rest =>
          simp only [utf8DecodeLoop] at h
          cases hdc : utf8DecodeChar (b :: rest) with
          | none => rw [hdc] at h; exact absurd h (by simp)
          | some p =>
              obtain ⟨c, r⟩ := p
              rw [hdc] at h
              simp only [Option.map_eq_some'] at h
              obtain ⟨cs', hrec, hcs⟩ := h
              subst hcs
              obtain ⟨henc, hval, hlt⟩ := utf8DecodeChar_sound hdc
              simp only [List.length_cons] at hlen hlt
              obtain ⟨he, hv⟩ := ih r cs' (by omega) hrec
              refine ⟨?_, ?_⟩
              · simp only [utf8Encode, he]
                exact henc
              · intro x hx
                rcases List.mem_cons.mp hx with rfl | hx
                · exact hval
                · exact hv x hx

/-- Decoded UTF-8 re-encodes to the original bytes, and every decoded code
point is a Unicode scalar value. -/
lemma utf8Decode_sound {bs cs : List ℕ} (h : utf8Decode bs = some cs) :
    utf8Encode cs = bs ∧ ∀ c ∈ cs, validScalar c :=
  utf8DecodeLoop_sound bs.length bs cs (le_refl _) h

lemma utf8EncodeChar_ascii {c : ℕ} (h : c < 128) : utf8EncodeChar c = [c] := by
  simp [utf8EncodeChar, h]

lemma utf8Encode_ascii {l : List ℕ} (h : ∀ c ∈ l, c < 128) : utf8Encode l = l := by
  induction l with
  | nil => rfl
  | cons c s ih =>
      simp only [utf8Encode, utf8EncodeChar_ascii (h c (by simp)), List.cons_append,
        List.nil_append]
      rw [ih (fun x hx => h x (by simp [hx]))]

lemma utf8DecodeLoop_ascii : ∀ (fuel : ℕ) (l : List ℕ), l.length ≤ fuel →
    (∀ c ∈ l, c < 128) → utf8DecodeLoop fuel l = some l := by
  intro fuel
  induction fuel with
  | zero =>
      intro l hlen _
      rw [List.length_eq_zero.mp (Nat.le_zero.mp hlen)]
      rfl
  | succ fuel ih =>
      intro l hlen hall
      cases l with
      | nil => rfl
      | cons b rest =>
          have hb : b < 128 := hall b (by simp)
          simp only [utf8DecodeLoop, utf8DecodeChar, if_pos hb]
          rw [ih rest (by simp at hlen; omega) (fun x hx => hall x (by simp [hx]))]
          rfl

lemma utf8Decode_ascii {l : List ℕ} (h : ∀ c ∈ l, c < 128) : utf8Decode l = some l :=
  utf8DecodeLoop_ascii l.length l (le_refl _) h

lemma hexVal_hexDigitChar {d : ℕ} (h : d < 16) : hexVal (hexDigitChar d) = some d := by
  unfold hexVal hexDigitChar
  by_cases h10 : d < 10
  · rw [if_pos h10, if_pos (by omega)]
    simp only [Option.some.injEq]
    omega
  · rw [if_neg h10, if_neg (by omega), if_pos (by omega)]
    simp only [Option.some.injEq]
    omega

lemma read4Hex_digits (d1 d2 d3 d4 : ℕ) (rest : List ℕ) (h1 : d1 < 16) (h2 : d2 < 16)
    (h3 : d3 < 16) (h4 : d4 < 16) :
    read4Hex (hexDigitChar d1 :: hexDigitChar d2 :: hexDigitChar d3 :: hexDigitChar d4
        :: rest)
      = some (((d1 * 16 + d2) * 16 + d3) * 16 + d4, rest) := by
  simp [read4Hex, hexVal_hexDigitChar h1, hexVal_hexDigitChar h2, hexVal_hexDigitChar h3,
    hexVal_hexDigitChar h4]

lemma readStrBody_short (fuel : ℕ) (e c' : ℕ) (input : List ℕ)
    (hshort : shortUnescape e = some c') (he : ¬ e = 117) :
    readStrBody (fuel + 1) (92 :: e :: input)
      = (readStrBody fuel input).map (fun p => (c' :: p.1, p.2)) := by
  simp [readStrBody, he, hshort]

lemma readStrBody_literal (fuel : ℕ) (c : ℕ) (input : List ℕ) (h34 : ¬ c = 34)
    (h92 : ¬ c = 92) :
    readStrBody (fuel + 1) (c :: input)
      = (readStrBody fuel input).map (fun p => (c :: p.1, p.2)) := by
  simp [readStrBody, h34, h92]

lemma read4Hex_of_lt (u : ℕ) (rest : List ℕ) (hu : u < 65536) :
    read4Hex (hexDigitChar (u / 4096 % 16) :: hexDigitChar (u / 256 % 16)
        :: hexDigitChar (u / 16 % 16) :: hexDigitChar (u % 16) :: rest) = some (u, rest) := by
  have hval : ((u / 4096 % 16 * 16 + u / 256 % 16) * 16 + u / 16 % 16) * 16 + u % 16 = u := by
    omega
  rw [read4Hex_digits _ _ _ _ rest (by omega) (by omega) (by omega) (by omega), hval]

lemma readStrBody_uEscape (fuel : ℕ) (u : ℕ) (input : List ℕ) (hu : u < 65536)
    (hs1 : ¬ (55296 ≤ u ∧ u < 56320)) (hs2 : ¬ (56320 ≤ u ∧ u < 57344)) :
    readStrBody (fuel + 1) (uEscape u ++ input)
      = (readStrBody fuel input).map (fun p => (u :: p.1, p.2)) := by
  simp only [uEscape, List.cons_append, List.nil_append]
  simp only [readStrBody, if_true, if_false]
  rw [read4Hex_of_lt u input hu]
  dsimp only
  rw [if_neg hs1, if_neg hs2, if_neg (by omega : ¬ (92 = 34))]

lemma readStrBody_pair_abstract (fuel hi lo : ℕ) (input : List ℕ)
    (hh : 55296 ≤ hi ∧ hi < 56320) (hl : 56320 ≤ lo ∧ lo < 57344) :
    readStrBody (fuel + 1) (uEscape hi ++ (uEscape lo ++ input))
      = (readStrBody fuel input).map
          (fun p => ((65536 + (hi - 55296) * 1024 + (lo - 56320)) :: p.1, p.2)) := by
  simp only [uEscape, List.cons_append, List.nil_append]
  simp only [readStrBody, if_true, if_false]
  rw [read4Hex_of_lt hi _ (by omega)]
  dsimp only
  rw [if_pos hh]
  rw [read4Hex_of_lt lo _ (by omega)]
  dsimp only
  rw [if_pos hl, if_neg (by omega : ¬ (92 = 34))]

lemma readStrBody_surrogatePair (fuel : ℕ) (u : ℕ) (input : List ℕ) (h1 : 65536 ≤ u)
    (h2 : u < 1114112) :
    readStrBody (fuel + 1)
        ((uEscape (55296 + (u - 65536) / 1024) ++ uEscape (56320 + (u - 65536) % 1024))
          ++ input)
      = (readStrBody fuel input).map (fun p => (u :: p.1, p.2)) := by
  have hcomb : 65536 + (55296 + (u - 65536) / 1024 - 55296) * 1024
      + (56320 + (u - 65536) % 1024 - 56320) = u := by
    omega
  rw [List.append_assoc,
    readStrBody_pair_abstract fuel _ _ input (by omega) (by omega), hcomb]

lemma readStrBody_escapeString (s : List ℕ) (hs : ∀ c ∈ s, validScalar c) :
    ∀ (fuel : ℕ), s.length < fuel → ∀ (rest : List ℕ),
      readStrBody fuel (escapeString s ++ 34 :: rest) = some (s, rest) := by
  induction s with
  | nil =>
      intro fuel hf rest
      cases fuel with
      | zero => omega
      | succ fuel =>
          simp only [escapeString, List.nil_append]
          simp [readStrBody]
  | cons c s ih =>
      intro fuel hf rest
      have hc := hs c (by simp)
      obtain ⟨hc1, hc2⟩ := hc
      have hrec : ∀ x ∈ s, validScalar x := fun x hx => hs x (by simp [hx])
      cases fuel with
      | zero => omega
      | succ fuel =>
          have hlen : s.length < fuel := by simp at hf; omega
          have ihs := ih hrec fuel hlen rest
          simp only [escapeString, List.append_assoc]
          by_cases h34 : c = 34
          · subst h34
            rw [show escapeChar 34 = [92, 34] from by decide]
            simp only [List.cons_append, List.nil_append]
            rw [readStrBody_short fuel 34 34 _ (by decide) (by decide), ihs]
            rfl
          · by_cases h92 : c = 92
            · subst h92
              rw [show escapeChar 92 = [92, 92] from by decide]
              simp only [List.cons_append, List.nil_append]
              rw [readStrBody_short fuel 92 92 _ (by decide) (by decide), ihs]
              rfl
            · by_cases h8 : c = 8
              · subst h8
                rw [show escapeChar 8 = [92, 98] from by decide]
                simp only [List.cons_append, List.nil_append]
                rw [readStrBody_short fuel 98 8 _ (by decide) (by decide), ihs]
                rfl
              · by_cases h9 : c = 9
                · subst h9
                  rw [show escapeChar 9 = [92, 116] from by decide]
                  simp only [List.cons_append, List.nil_append]
                  rw [readStrBody_short fuel 116 9 _ (by decide) (by decide), ihs]
                  rfl
                · by_cases h10 : c = 10
                  · subst h10
                    rw [show escapeChar 10 = [92, 110] from by decide]
                    simp only [List.cons_append, List.nil_append]
                    rw [readStrBody_short fuel 110 10 _ (by decide) (by decide), ihs]
                    rfl
                  · by_cases h12 : c = 12
                    · subst h12
                      rw [show escapeChar 12 = [92, 102] from by decide]
                      simp only [List.cons_append, List.nil_append]
                      rw [readStrBody_short fuel 102 12 _ (by decide) (by decide), ihs]
                      rfl
                    · by_cases h13 : c = 13
                      · subst h13
                        rw [show escapeChar 13 = [92, 114] from by decide]
                        simp only [List.cons_append, List.nil_append]
                        rw [readStrBody_short fuel 114 13 _ (by decide) (by decide), ihs]
                        rfl
                      · by_cases hlit : 32 ≤ c ∧ c ≤ 126
                        · have he : escapeChar c = [c] := by
                            unfold escapeChar
                            rw [if_neg h34, if_neg h92, if_neg h8, if_neg h9, if_neg h10,
                              if_neg h12, if_neg h13, if_pos hlit]
                          rw [he]
                          simp only [List.cons_append, List.nil_append]
                          rw [readStrBody_literal fuel c _ h34 h92, ihs]
                          rfl
                        · by_cases hbmp : c < 65536
                          · have he : escapeChar c = uEscape c := by
                              unfold escapeChar
                              rw [if_neg h34, if_neg h92, if_neg h8, if_neg h9, if_neg h10,
                                if_neg h12, if_neg h13, if_neg hlit, if_pos hbmp]
                            rw [he, readStrBody_uEscape fuel c _ hbmp (by omega) (by omega),
                              ihs]
                            rfl
                          · have he : escapeChar c
                                = uEscape (55296 + (c - 65536) / 1024)
                                  ++ uEscape (56320 + (c - 65536) % 1024) := by
                              unfold escapeChar
                              rw [if_neg h34, if_neg h92, if_neg h8, if_neg h9, if_neg h10,
                                if_neg h12, if_neg h13, if_neg hlit, if_neg hbmp]
                            rw [he, readStrBody_surrogatePair fuel c _ (by omega) hc1, ihs]
                            rfl

/-- The next character (if any) is a decimal digit. -/
def digitStart : List ℕ → Prop
  | [] => False
  | c :: _ => 48 ≤ c ∧ c ≤ 57

instance (l : List ℕ) : Decidable (digitStart l) := by
  unfold digitStart
  cases l <;> infer_instance

lemma natToDecAux_digits : ∀ (fuel n : ℕ), ∀ c ∈ natToDecAux fuel n, 48 ≤ c ∧ c ≤ 57 := by
  intro fuel
  induction fuel with
  | zero => intro n c hc; simp [natToDecAux] at hc
  | succ fuel ih =>
      intro n c hc
      by_cases h : n < 10
      · simp only [natToDecAux, if_pos h, List.mem_singleton] at hc
        omega
      · simp only [natToDecAux, if_neg h, List.mem_append, List.mem_singleton] at hc
        rcases hc with hc | hc
        · exact ih _ c hc
        · omega

lemma natToDecAux_ne_nil (fuel n : ℕ) (h : 0 < fuel) : natToDecAux fuel n ≠ [] := by
  cases fuel with
  | zero => omega
  | succ fuel =>
      by_cases h10 : n < 10
      · simp [natToDecAux, if_pos h10]
      · simp only [natToDecAux, if_neg h10]
        simp

lemma readDigits_run : ∀ (ds : List ℕ), (∀ c ∈ ds, 48 ≤ c ∧ c ≤ 57) →
    ∀ (acc : ℕ) (rest : List ℕ), ¬ digitStart rest →
    readDigits acc (ds ++ rest) = (ds.foldl (fun a c => a * 10 + (c - 48)) acc, rest) := by
  intro ds
  induction ds with
  | nil =>
      intro _ acc rest hrest
      cases rest with
      | nil => rfl
      | cons c r =>
          simp only [List.nil_append, List.foldl_nil, readDigits]
          rw [if_neg (by simpa [digitStart] using hrest)]
  | cons d ds ih =>
      intro hds acc rest hrest
      have hd := hds d (by simp)
      simp only [List.cons_append, readDigits, if_pos hd, List.foldl_cons]
      exact ih (fun c hc => hds c (by simp [hc])) _ rest hrest

lemma natToDecAux_foldl : ∀ (fuel n : ℕ), n < fuel → ∀ (acc : ℕ),
    (natToDecAux fuel n).foldl (fun a c => a * 10 + (c - 48)) acc
      = acc * 10 ^ (natToDecAux fuel n).length + n := by
  intro fuel
  induction fuel with
  | zero => omega
  | succ fuel ih =>
      intro n hn acc
      by_cases h : n < 10
      · simp only [natToDecAux, if_pos h, List.foldl_cons, List.foldl_nil,
          List.length_singleton, pow_one]
        omega
      · simp only [natToDecAux, if_neg h, List.foldl_append, List.foldl_cons,
          List.foldl_nil, List.length_append, List.length_singleton]
        have hlt : n / 10 < fuel := by omega
        rw [ih (n / 10) hlt acc]
        have h48 : 48 + n % 10 - 48 = n % 10 := by omega
        rw [h48, pow_succ]
        generalize (natToDecAux fuel (n / 10)).length = L
        have hsplit : n / 10 * 10 + n % 10 = n := by omega
        calc (acc * 10 ^ L + n / 10) * 10 + n % 10
            = acc * (10 ^ L * 10) + (n / 10 * 10 + n % 10) := by ring
          _ = acc * (10 ^ L * 10) + n := by rw [hsplit]

lemma readInt_natToDec (n : ℕ) (rest : List ℕ) (hrest : ¬ digitStart rest) :
    readInt (natToDec n ++ rest) = some ((n : ℤ), rest) := by
  have hdigits := natToDecAux_digits (n + 1) n
  have hfold := natToDecAux_foldl (n + 1) n (by omega) 0
  rw [zero_mul, zero_add] at hfold
  cases hd : natToDecAux (n + 1) n with
  | nil => exact absurd hd (natToDecAux_ne_nil _ _ (by omega))
  | cons d ds =>
      have hdd : 48 ≤ d ∧ d ≤ 57 := hdigits d (by rw [hd]; simp)
      have hrun : readDigits 0 ((d :: ds) ++ rest)
          = ((d :: ds).foldl (fun a c => a * 10 + (c - 48)) 0, rest) := by
        refine readDigits_run (d :: ds) ?_ 0 rest hrest
        intro c hc
        exact hdigits c (by rw [hd]; exact hc)
      rw [hd] at hfold
      simp only [natToDec, hd, List.cons_append, readInt]
      rw [if_neg (by omega), if_pos hdd]
      rw [← List.cons_append, hrun, hfold]

def jstrFuel : JVal → ℕ
  | .jstr s => s.length
  | _ => 0

def wfVal : JVal → Prop
  | .jint n => 0 ≤ n
  | .jstr s => ∀ c ∈ s, validScalar c
  | .jbool _ => True

lemma parseVal_dumpVal (v : JVal) (hv : wfVal v) (fuel : ℕ) (rest : List ℕ)
    (hfuel : jstrFuel v < fuel) (hrest : ¬ digitStart rest) :
    parseVal fuel (dumpVal v ++ rest) = some (v, rest) := by
  cases v with
  | jint n =>
      obtain ⟨m, rfl⟩ : ∃ m : ℕ, n = (m : ℤ) :=
        ⟨n.toNat, (Int.toNat_of_nonneg hv).symm⟩
      have hdump : dumpVal (.jint (m : ℤ)) = natToDec m := by
        simp only [dumpVal, dumpInt]
        rw [if_neg (by omega)]
        congr 1
      rw [hdump]
      have hdigits := natToDecAux_digits (m + 1) m
      cases hd : natToDecAux (m + 1) m with
      | nil => exact absurd hd (natToDecAux_ne_nil _ _ (by omega))
      | cons d ds =>
          have hdd : 48 ≤ d ∧ d ≤ 57 := hdigits d (by rw [hd]; simp)
          have hri := readInt_natToDec m rest hrest
          simp only [natToDec, hd, List.cons_append, parseVal] at hri ⊢
          rw [if_neg (by omega), if_neg (by omega), if_neg (by omega), hri]
          rfl
  | jstr s =>
      simp only [dumpVal, List.cons_append, List.append_assoc, List.singleton_append,
        List.nil_append, parseVal, if_true]
      rw [readStrBody_escapeString s hv fuel (by simpa [jstrFuel] using hfuel) rest]
      rfl
  | jbool b =>
      cases b with
      | true =>
          simp only [dumpVal, List.cons_append, List.nil_append]
          simp [parseVal]
      | false =>
          simp only [dumpVal, List.cons_append, List.nil_append]
          simp [parseVal]

/-- A JSON object key that serializes literally (the keys this protocol
uses: plain printable ASCII without quote or backslash). -/
def wfKey (k : List ℕ) : Prop := ∀ c ∈ k, (32 ≤ c ∧ c ≤ 126) ∧ ¬ c = 34 ∧ ¬ c = 92

def wfObj (obj : List (List ℕ × JVal)) : Prop := ∀ p ∈ obj, wfKey p.1 ∧ wfVal p.2

lemma escapeChar_safe {c : ℕ} (h : (32 ≤ c ∧ c ≤ 126) ∧ ¬ c = 34 ∧ ¬ c = 92) :
    escapeChar c = [c] := by
  obtain ⟨hr, h34, h92⟩ := h
  unfold escapeChar
  rw [if_neg h34, if_neg h92, if_neg (by omega), if_neg (by omega), if_neg (by omega),
    if_neg (by omega), if_neg (by omega), if_pos hr]

lemma escapeString_safe {k : List ℕ} (h : wfKey k) : escapeString k = k := by
  induction k with
  | nil => rfl
  | cons c s ih =>
      simp only [escapeString, escapeChar_safe (h c (by simp)), List.cons_append,
        List.nil_append]
      rw [ih (fun x hx => h x (by simp [hx]))]

lemma readStrBody_key {k : List ℕ} (hk : wfKey k) (fuel : ℕ) (hfuel : k.length < fuel)
    (rest : List ℕ) : readStrBody fuel (k ++ 34 :: rest) = some (k, rest) := by
  have hv : ∀ c ∈ k, validScalar c := by
    intro c hc
    obtain ⟨⟨h1, h2⟩, _⟩ := hk c hc
    exact ⟨by omega, Or.inl (by omega)⟩
  have := readStrBody_escapeString k hv fuel hfuel rest
  rwa [escapeString_safe hk] at this

lemma escapeString_length_ge (s : List ℕ) : s.length ≤ (escapeString s).length := by
  induction s with
  | nil => simp [escapeString]
  | cons c s ih =>
      have h1 : 1 ≤ (escapeChar c).length := by
        unfold escapeChar
        split_ifs <;> simp [uEscape]
      simp only [escapeString, List.length_append, List.length_cons]
      omega

lemma jstrFuel_le_dumpVal (v : JVal) : jstrFuel v ≤ (dumpVal v).length := by
  cases v with
  | jint n => simp [jstrFuel]
  | jstr s =>
      have := escapeString_length_ge s
      simp only [jstrFuel, dumpVal, List.length_cons, List.length_append]
      omega
  | jbool b => cases b <;> simp [jstrFuel, dumpVal]

lemma parsePairs_dumpPairs : ∀ (obj : List (List ℕ × JVal)), obj ≠ [] → wfObj obj →
    ∀ (fuel : ℕ), (dumpPairs obj).length < fuel →
    parsePairs fuel (dumpPairs obj ++ [125]) = some (obj, [125]) := by
  intro obj
  induction obj with
  | nil => intro h; exact absurd rfl h
  | cons p ps ih =>
      intro _ hwf fuel hfuel
      obtain ⟨k, v⟩ := p
      obtain ⟨hk, hv⟩ := hwf (k, v) (by simp)
      simp only at hk hv
      have hjf := jstrFuel_le_dumpVal v
      cases fuel with
      | zero => simp at hfuel
      | succ fuel =>
          cases ps with
          | nil =>
              simp only [dumpPairs, dumpPair, List.length_cons, List.length_append] at hfuel
              simp only [dumpPairs, dumpPair, List.cons_append, List.append_assoc,
                List.cons_append, List.nil_append, parsePairs]
              rw [readStrBody_key hk fuel (by omega) (58 :: 32 :: (dumpVal v ++ [125]))]
              dsimp only
              rw [parseVal_dumpVal v hv fuel [125] (by omega) (by simp [digitStart])]
          | cons q qs =>
              simp only [dumpPairs, dumpPair, List.length_append, List.length_cons] at hfuel
              simp only [dumpPairs, dumpPair, List.cons_append, List.append_assoc,
                List.nil_append, parsePairs]
              rw [readStrBody_key hk fuel (by omega)
                (58 :: 32 :: (dumpVal v ++ 44 :: 32 :: (dumpPairs (q :: qs) ++ [125])))]
              dsimp only
              rw [parseVal_dumpVal v hv fuel (44 :: 32 :: (dumpPairs (q :: qs) ++ [125]))
                (by omega) (by simp [digitStart])]
              dsimp only
              rw [ih (by simp) (fun x hx => hwf x (by simp [hx])) fuel (by omega)]
              rfl

lemma dumpPairs_cons_shape (p : List ℕ × JVal) (ps : List (List ℕ × JVal)) :
    ∃ t, dumpPairs (p :: ps) = 34 :: t := by
  cases ps with
  | nil => exact ⟨p.1 ++ [34, 58, 32] ++ dumpVal p.2, by simp [dumpPairs, dumpPair]⟩
  | cons q qs =>
      exact ⟨(p.1 ++ [34, 58, 32] ++ dumpVal p.2) ++ [44, 32] ++ dumpPairs (q :: qs),
        by simp [dumpPairs, dumpPair]⟩

lemma parseJson_dumps (obj : List (List ℕ × JVal)) (hne : obj ≠ []) (hwf : wfObj obj) :
    parseJson (dumps obj) = some obj := by
  cases obj with
  | nil => exact absurd rfl hne
  | cons p ps =>
      obtain ⟨t, ht⟩ := dumpPairs_cons_shape p ps
      simp only [dumps, parseJson, ht, List.cons_append]
      rw [← List.cons_append, ← ht]
      rw [parsePairs_dumpPairs (p :: ps) (by simp) hwf _ ?hl]
      case hl =>
        rw [ht]
        simp only [List.length_cons, List.length_append, List.length_singleton]
        omega

lemma uEscape_ascii (u : ℕ) : ∀ x ∈ uEscape u, x < 128 := by
  intro x hx
  have hd : ∀ m : ℕ, m < 16 → hexDigitChar m < 128 := by
    intro m hm
    unfold hexDigitChar
    split_ifs <;> omega
  simp only [uEscape, List.mem_cons, List.not_mem_nil, or_false] at hx
  rcases hx with rfl | rfl | rfl | rfl | rfl | rfl
  · omega
  · omega
  · exact hd _ (by omega)
  · exact hd _ (by omega)
  · exact hd _ (by omega)
  · exact hd _ (by omega)

lemma escapeChar_ascii (c : ℕ) : ∀ x ∈ escapeChar c, x < 128 := by
  intro x hx
  unfold escapeChar at hx
  split_ifs at hx with h1 h2 h3 h4 h5 h6 h7 h8 h9
  all_goals first
    | (simp only [List.mem_cons, List.not_mem_nil, or_false] at hx
       rcases hx with rfl | rfl <;> omega)
    | (simp only [List.mem_singleton] at hx; omega)
    | exact uEscape_ascii _ x hx
    | (rcases List.mem_append.mp hx with hx | hx <;> exact uEscape_ascii _ x hx)

lemma escapeString_ascii (s : List ℕ) : ∀ x ∈ escapeString s, x < 128 := by
  induction s with
  | nil => simp [escapeString]
  | cons c s ih =>
      intro x hx
      rcases List.mem_append.mp (by simpa [escapeString] using hx) with hx | hx
      · exact escapeChar_ascii c x hx
      · exact ih x hx

lemma natToDec_ascii (n : ℕ) : ∀ x ∈ natToDec n, x < 128 := by
  intro x hx
  have := natToDecAux_digits (n + 1) n x hx
  omega

lemma dumpVal_ascii (v : JVal) (hv : wfVal v) : ∀ x ∈ dumpVal v, x < 128 := by
  intro x hx
  cases v with
  | jint n =>
      simp only [dumpVal, dumpInt] at hx
      split_ifs at hx with h
      · exact absurd h (by simpa [wfVal] using hv)
      · exact natToDec_ascii _ x hx
  | jstr s =>
      simp only [dumpVal, List.mem_cons, List.mem_append, List.mem_singleton,
        List.not_mem_nil, or_false] at hx
      rcases hx with rfl | hx | rfl
      · omega
      · exact escapeString_ascii s x hx
      · omega
  | jbool b =>
      cases b <;> simp only [dumpVal, List.mem_cons, List.not_mem_nil, or_false] at hx <;>
        omega

lemma dumpPairs_ascii : ∀ (obj : List (List ℕ × JVal)), wfObj obj →
    ∀ x ∈ dumpPairs obj, x < 128 := by
  intro obj
  induction obj with
  | nil => simp [dumpPairs]
  | cons p ps ih =>
      intro hwf x hx
      obtain ⟨hk, hv⟩ := hwf p (by simp)
      have hpair : ∀ y ∈ dumpPair p, y < 128 := by
        intro y hy
        simp only [dumpPair, List.mem_cons, List.mem_append, List.mem_singleton,
          List.not_mem_nil, or_false] at hy
        rcases hy with rfl | (hy | rfl | rfl | rfl) | hy
        · omega
        · exact (hk y hy).1.2.trans_lt (by omega)
        · omega
        · omega
        · omega
        · exact dumpVal_ascii p.2 hv y hy
      cases ps with
      | nil => exact hpair x (by simpa [dumpPairs] using hx)
      | cons q qs =>
          simp only [dumpPairs, List.mem_append, List.mem_cons, List.not_mem_nil,
            or_false] at hx
          rcases hx with (hx | rfl | rfl) | hx
          · exact hpair x hx
          · omega
          · omega
          · exact ih (fun y hy => hwf y (by simp [hy])) x hx

lemma dumps_ascii (obj : List (List ℕ × JVal)) (hwf : wfObj obj) :
    ∀ x ∈ dumps obj, x < 128 := by
  intro x hx
  simp only [dumps, List.mem_cons, List.mem_append, List.mem_singleton,
    List.not_mem_nil, or_false] at hx
  rcases hx with rfl | hx | rfl
  · omega
  · exact dumpPairs_ascii obj hwf x hx
  · omega

/-- C2 amended: for every sequence number and every payload of at most MSS
bytes **that is valid UTF-8**, the packet built by `create_packet` decodes
on the receiver back to exactly the original sequence number and the
original payload byte-for-byte.  (For payloads that are not valid UTF-8 the
encoder itself fails; see the counterexample.) -/
theorem c2_packet_roundtrip_utf8 (seq_num : ℕ) (data text : List ℕ)
    (hlen : data.length ≤ MSS) (hdec : utf8Decode data = some text) :
    ∃ wire, create_packet seq_num data = some wire ∧
      decodeClientMsg wire = some (.dataMsg (seq_num : ℤ) data) := by
  obtain ⟨henc, hval⟩ := utf8Decode_sound hdec
  have hwf : wfObj [(seqKey, .jint (seq_num : ℤ)), (lengthKey, .jint (data.length : ℤ)),
      (dataKey, .jstr text)] := by
    intro p hp
    simp only [List.mem_cons, List.not_mem_nil, or_false] at hp
    rcases hp with rfl | rfl | rfl
    · exact ⟨(by unfold wfKey seqKey; decide : wfKey seqKey), Int.natCast_nonneg _⟩
    · exact ⟨(by unfold wfKey lengthKey; decide : wfKey lengthKey), Int.natCast_nonneg _⟩
    · exact ⟨(by unfold wfKey dataKey; decide : wfKey dataKey), hval⟩
  have hascii := dumps_ascii _ hwf
  refine ⟨utf8Encode (dumps [(seqKey, .jint (seq_num : ℤ)),
      (lengthKey, .jint (data.length : ℤ)), (dataKey, .jstr text)]), ?_, ?_⟩
  · simp only [create_packet, hdec, Option.map_some']
  · rw [utf8Encode_ascii hascii]
    unfold decodeClientMsg
    rw [utf8Decode_ascii hascii]
    dsimp only
    rw [parseJson_dumps _ (by simp) hwf]
    dsimp only
    have hend : lookupKey endKey [(seqKey, JVal.jint (seq_num : ℤ)),
        (lengthKey, JVal.jint (data.length : ℤ)), (dataKey, JVal.jstr text)] = none := by
      simp [lookupKey, seqKey, lengthKey, dataKey, endKey]
    have hseq : lookupKey seqKey [(seqKey, JVal.jint (seq_num : ℤ)),
        (lengthKey, JVal.jint (data.length : ℤ)), (dataKey, JVal.jstr text)]
          = some (JVal.jint (seq_num : ℤ)) := by
      simp [lookupKey]
    have hdata : lookupKey dataKey [(seqKey, JVal.jint (seq_num : ℤ)),
        (lengthKey, JVal.jint (data.length : ℤ)), (dataKey, JVal.jstr text)]
          = some (JVal.jstr text) := by
      simp [lookupKey, seqKey, lengthKey, dataKey]
    rw [hend]
    dsimp only
    rw [hseq, hdata]
    dsimp only
    rw [henc]
    simp

/-- C2 counterexample: the single-byte payload `[0xFF]` (length ≤ MSS) is
not valid text; `create_packet` calls `data.decode()`, which raises
`UnicodeDecodeError`, so no packet bytes are produced at all — the encoder
does not round-trip payload bytes that are not valid UTF-8. -/
theorem c2_counterexample :
    create_packet 7 [255] = none ∧ [255].length ≤ MSS := by
  exact ⟨by decide, by decide⟩

/-- Witness for C2 (amended) at a payload exercising the quote, backslash
and newline escapes and 2-, 3- and 4-byte UTF-8 sequences. -/
theorem c2_witness :
    [34, 92, 10, 104, 195, 169, 226, 130, 172, 240, 159, 152, 128].length ≤ MSS ∧
    (∃ wire,
      create_packet 5 [34, 92, 10, 104, 195, 169, 226, 130, 172, 240, 159, 152, 128]
          = some wire ∧
      decodeClientMsg wire
          = some (.dataMsg ((5 : ℕ) : ℤ)
              [34, 92, 10, 104, 195, 169, 226, 130, 172, 240, 159, 152, 128])) :=
  ⟨by decide, c2_packet_roundtrip_utf8 5 _ [34, 92, 10, 104, 233, 8364, 128512]
    (by decide) (by decide)⟩

/-- C4 amended: a received datagram that cannot be decoded as an
acknowledgment is **not** silently ignored — the decode exception
propagates out of the sender's loop (only `socket.timeout` is caught), so
`send_file` aborts; likewise the receiver's `receive_file` aborts on an
undecodable inbound message.  A receive timeout, in contrast, is caught and
handled.  (Any datagram that is not valid UTF-8 fails both decoders.) -/
theorem c4_malformed_datagram_aborts (st : SenderState) (bytes : List ℕ) :
    (utf8Decode bytes = none →
      parseAckPacket bytes = none ∧ decodeClientMsg bytes = none) ∧
    (parseAckPacket bytes = none →
      senderWaitDatagram st (some bytes) = .error () ∧
      ∀ st', senderWaitDatagram st (some bytes) ≠ .ok st') ∧
    (decodeClientMsg bytes = none →
      receiverDispatch bytes = .error () ∧ ∀ m, receiverDispatch bytes ≠ .ok m) ∧
    senderWaitDatagram st none = .ok (waitStep st .timeout) := by
  refine ⟨?_, ?_, ?_, rfl⟩
  · intro h
    constructor
    · unfold parseAckPacket
      rw [h]
    · unfold decodeClientMsg
      rw [h]
  · intro h
    have he : senderWaitDatagram st (some bytes) = .error () := by
      unfold senderWaitDatagram
      dsimp only
      rw [h]
    refine ⟨he, ?_⟩
    intro st' hok
    rw [he] at hok
    exact Except.noConfusion hok
  · intro h
    have he : receiverDispatch bytes = .error () := by
      unfold receiverDispatch
      rw [h]
    refine ⟨he, ?_⟩
    intro m hok
    rw [he] at hok
    exact Except.noConfusion hok

/-- C4 counterexample: on the one-byte datagram `[0xFF]`, `.decode()`
raises `UnicodeDecodeError`, which neither loop's `try` (catching only
`socket.timeout`) handles: the sender's wait phase and the receiver's loop
abort with an uncaught exception rather than ignoring the datagram and
continuing unchanged. -/
theorem c4_counterexample :
    senderWaitDatagram (senderInit 5) (some [255]) = .error () ∧
    (∀ st', senderWaitDatagram (senderInit 5) (some [255]) ≠ .ok st') ∧
    receiverDispatch [255] = .error () ∧
    (∀ m, receiverDispatch [255] ≠ .ok m) := by
  have h1 : senderWaitDatagram (senderInit 5) (some [255]) = .error () := rfl
  have h2 : receiverDispatch [255] = .error () := rfl
  refine ⟨h1, ?_, h2, ?_⟩
  · intro st' hok
    rw [h1] at hok
    exact Except.noConfusion hok
  · intro m hok
    rw [h2] at hok
    exact Except.noConfusion hok

/-- Witness for C4 (amended) at the concrete undecodable datagram `[0xFF]`. -/
theorem c4_witness :
    utf8Decode [255] = none ∧
    parseAckPacket [255] = none ∧
    senderWaitDatagram (senderInit 3) (some [255]) = .error () ∧
    receiverDispatch [255] = .error () ∧
    senderWaitDatagram (senderInit 3) none = .ok (waitStep (senderInit 3) .timeout) := by
  have h := c4_malformed_datagram_aborts (senderInit 3) [255]
  have hu : utf8Decode [255] = none := rfl
  obtain ⟨ha, hb⟩ := h.1 hu
  exact ⟨hu, ha, (h.2.1 ha).1, (h.2.2.1 hb).1, h.2.2.2⟩
